import Mathlib

/-!
Verification of the connectionsplayground repository's core logic.

This file shallowly embeds the repository's data-synchronisation script
(`scripts/fetch-connections-range.mjs`) and the Solve-tab engine
(`src/tabs/Solve.tsx`) in Lean and proves the specification's claims
about them.

Modelling conventions:
* JavaScript strings are `String`, JS numbers that hold integral values
  are `Int` (with explicit `max`/`min` clamping where the source clamps).
* JS `Array.prototype.sort()` with no comparator (string sort) is
  `List.insertionSort (· ≤ ·)`, a stable sort agreeing with the JS
  code-unit order on the ASCII strings used by the program.
* `Date.UTC(y, m - 1, d) / 86400000` for a calendar date is the standard
  proleptic-Gregorian day number (days since 1970-01-01).
* JS objects used as dictionaries are association lists
  (`List (String × _)`) read with `List.lookup`; iteration order of
  `Object.values` is the list order.
-/

/-- Lexicographic comparison of character lists by code point: the order
JS `Array.prototype.sort()` uses on the program's (ASCII) strings. -/
def charListLe : List Char → List Char → Bool
  | [], _ => true
  | _ :: _, [] => false
  | a :: as, b :: bs => if a = b then charListLe as bs else decide (a < b)

/-- JS string comparison (`<`-based default sort order). -/
def strLe (a b : String) : Bool :=
  charListLe a.toList b.toList

/-- `strLe` as a relation, for use with `List.insertionSort`. -/
def StrLE (a b : String) : Prop := strLe a b = true

instance : DecidableRel StrLE := fun a b => instDecidableEqBool (strLe a b) true

/-- JS `Array.prototype.sort()` on an array of strings: ascending sort. -/
def sortStrings (l : List String) : List String :=
  l.insertionSort StrLE

/-- Split a character list at every occurrence of `sep` (kernel-reducible
model of JS `String.prototype.split` with a single-character separator). -/
def splitOnChar (sep : Char) : List Char → List (List Char)
  | [] => [[]]
  | c :: rest =>
      match splitOnChar sep rest with
      | [] => [[]]
      | h :: t => if c = sep then [] :: h :: t else (c :: h) :: t

/-- JS `s.split(sep)` for a one-character separator. -/
def jsSplit (sep : Char) (s : String) : List String :=
  (splitOnChar sep s.toList).map (fun cs => String.mk cs)

/-- Value of a decimal-digit list. -/
def digitsVal : List Char → Nat → Nat
  | [], acc => acc
  | c :: cs, acc => digitsVal cs (acc * 10 + (c.toNat - 48))

/-- JS `Number(s)` restricted to the program's inputs: the value of a
string of decimal digits; `""` is `0` (as in JS); strings containing a
non-digit (JS `NaN`) are collapsed to `0` — the theorems below only ever
evaluate dates whose components are digit strings. -/
def jsNum (s : String) : Int :=
  if s.toList.all (fun c => c.isDigit) then (digitsVal s.toList 0 : Int)
  else 0

/-- Day number (days since 1970-01-01) of a proleptic Gregorian calendar
date, the value of `Math.floor(Date.UTC(y, m - 1, d) / 86400000)` for a
valid calendar date. -/
def daysFromCivil (y m d : Int) : Int :=
  let y2 := if m ≤ 2 then y - 1 else y
  let era := y2.fdiv 400
  let yoe := y2 - era * 400
  let mp := if m ≤ 2 then m + 9 else m - 3
  let doy := (153 * mp + 2).fdiv 5 + d - 1
  let doe := yoe * 365 + yoe.fdiv 4 - yoe.fdiv 100 + doy
  era * 146097 + doe - 719468

/-- `toDayNum` from `Solve.tsx`: split a `YYYY-MM-DD` string on `-` and
convert to a UTC day number. -/
def toDayNum (s : String) : Int :=
  let ps := (jsSplit '-' s).map jsNum
  daysFromCivil (ps.getD 0 0) (ps.getD 1 0) (ps.getD 2 0)

/-! ## Index manifest model (`NytIndex` in `Solve.tsx`) -/

/-- One value of the `available` record of `index.json`: the fields the
consumer reads (`ok` and `printDate`). -/
structure IndexEntry where
  ok : Bool
  printDate : String
deriving Repr, DecidableEq

/-- The index manifest fields read by `pickBestDateFromIndex`. -/
structure NytIndex where
  anchor_print_date : String
  available : List (String × IndexEntry)
deriving Repr

/-- Sample manifest used to exercise the resolution theorem. -/
def sampleIndexA : NytIndex :=
  ⟨"2024-06-02", [("2024-06-01", ⟨true, "2024-06-01"⟩),
                  ("2024-06-02", ⟨false, "2024-06-02"⟩),
                  ("2024-06-05", ⟨true, "2024-06-05"⟩)]⟩

/-- Sample manifest whose anchor date is the only ok date. -/
def sampleIndexB : NytIndex :=
  ⟨"2024-06-01", [("2024-06-01", ⟨true, "2024-06-01"⟩)]⟩

/-- `index.available?.[k]` (JS object property lookup). -/
def availLookup (avail : List (String × IndexEntry)) (k : String) :
    Option IndexEntry :=
  avail.lookup k

/-- Truthiness of `avail[k]?.ok`. -/
def isOkEntry : Option IndexEntry → Bool
  | some e => e.ok
  | none => false

/-- The `okDates` list of `pickBestDateFromIndex`: `printDate` of every
ok entry, ascending string sort. -/
def okDatesSorted (index : NytIndex) : List String :=
  sortStrings ((index.available.filter (fun p => p.2.ok)).map
    (fun p => p.2.printDate))

/-- `Math.abs(toDayNum d - target)`. -/
def distTo (target : Int) (d : String) : Int :=
  |toDayNum d - target|

/-- The `for (const d of okDates)` minimum-distance scan of
`pickBestDateFromIndex`: replace the running best only on a strictly
smaller distance. -/
def scanBest (target : Int) : String → Int → List String → String
  | best, _, [] => best
  | best, bestDist, d :: ds =>
      if distTo target d < bestDist then scanBest target d (distTo target d) ds
      else scanBest target best bestDist ds

/-- `pickBestDateFromIndex` from `Solve.tsx` (lines 233-267). -/
def pickBestDateFromIndex (index : NytIndex) (preferredDate : String) :
    Option String :=
  if isOkEntry (availLookup index.available preferredDate) then
    some preferredDate
  else if index.anchor_print_date ≠ "" &&
      isOkEntry (availLookup index.available index.anchor_print_date) then
    some index.anchor_print_date
  else
    match okDatesSorted index with
    | [] => none
    | d0 :: rest =>
        -- the source seeds the scan with `okDates[0]` and then loops over
        -- the whole `okDates` list (the first iteration is a no-op)
        some (scanBest (toDayNum preferredDate) d0
          (distTo (toDayNum preferredDate) d0) (d0 :: rest))

/-! ## Solve engine model (`Solve.tsx`) -/

/-- A grid tile (`Tile` in `Solve.tsx`): a text card or an image card. -/
inductive Tile where
  | text (id : String) (text : String)
  | image (id : String) (imageUrl : String) (alt : String)
deriving Repr, DecidableEq

/-- The tile identity. -/
def Tile.id : Tile → String
  | .text i _ => i
  | .image i _ _ => i

/-- A committed player group (`Group` in `Solve.tsx`). At runtime the
`ColorKey` union type is a plain string, so `color` is `String`. -/
structure PlayerGroup where
  id : String
  color : String
  title : Option String
  tileIds : List String
deriving Repr, DecidableEq

/-- One row of the guess history (`GuessRow`). -/
structure GuessRow where
  id : String
  colors : List String
deriving Repr, DecidableEq

/-- One canonical answer group produced by `nytToSolutionGroups`. -/
structure SolGroup where
  color : String
  title : String
  tileIds : List String
deriving Repr, DecidableEq

/-- The `tileIdToColor` map: built by iterating the solution groups in
order and overwriting, so the last group containing an id wins. -/
def tileIdToColor (sgs : List SolGroup) (id : String) : Option String :=
  (sgs.reverse.find? (fun sg => sg.tileIds.contains id)).map (fun sg => sg.color)

/-- The element-wise comparison loop of `onSubmit`: every index `i` of the
sorted solution list must hold the same string as the sorted pick at `i`
(for the game's 4-element lists this is list equality). -/
def matchesSorted : List String → List String → Bool
  | [], _ => true
  | _ :: _, [] => false
  | a :: as, b :: bs => a == b && matchesSorted as bs

/-- The duplicate-guess fingerprint: sorted tile identities joined with
`|` (`pickedSorted.join("|")` over `pickedRaw.slice().sort()`). -/
def guessKeyOf (ids : List String) : String :=
  String.intercalate "|" (sortStrings ids)

/-- What a submission did, as signalled to the user: rejected no-op,
duplicate ("Already guessed"), wrong (with or without the "One away…"
near-miss signal), or a committed correct group. -/
inductive SubmitOutcome where
  | noop
  | duplicate
  | wrong (oneAway : Bool)
  | correct
deriving Repr, DecidableEq

/-- The Solve-tab state touched by the guess state machine. `selected` is
the JS `Set` in insertion order, `selectedOrder` its companion list. -/
structure SolveState where
  tiles : List Tile
  baseTiles : List Tile
  groups : List PlayerGroup
  solutionGroups : List SolGroup
  mistakesRemaining : Int
  selected : List String
  selectedOrder : List String
  guesses : List GuessRow
  guessedKeys : List String
  snack : Option String
  didFail : Bool
deriving Repr, DecidableEq

/-- `onSubmit` from `Solve.tsx` (lines 991-1102), with the animations
dropped and the two nondeterministic `uid(..)` calls passed as
`freshGroupId`/`freshGuessId`. -/
def onSubmit (freshGroupId freshGuessId : String) (st : SolveState) :
    SubmitOutcome × SolveState :=
  if st.selected.length ≠ 4 then (.noop, st)
  else if st.mistakesRemaining ≤ 0 then (.noop, st)
  else
    let pickedInOrder :=
      st.selectedOrder.filter (fun id => st.selected.contains id)
    let pickedRaw :=
      if pickedInOrder.length = 4 then pickedInOrder else st.selected
    let pickedSorted := sortStrings pickedRaw
    let guessKey := String.intercalate "|" pickedSorted
    if st.guessedKeys.contains guessKey then
      (.duplicate, { st with snack := some "Already guessed" })
    else
      let found := st.solutionGroups.find? (fun sg =>
        !(st.groups.any (fun g => g.color == sg.color)) &&
        matchesSorted (sortStrings sg.tileIds) pickedSorted)
      let rowColors := (pickedRaw.take 4).map
        (fun id => (tileIdToColor st.solutionGroups id).getD "purple")
      let st1 :=
        if rowColors.length = 4 then
          { st with
              guesses := st.guesses ++ [⟨freshGuessId, rowColors⟩],
              guessedKeys := st.guessedKeys ++ [guessKey] }
        else st
      match found with
      | none =>
          let oneAway := st.solutionGroups.any (fun sg =>
            !(st.groups.any (fun g => g.color == sg.color)) &&
            ((sg.tileIds.countP (fun id => pickedRaw.contains id)) == 3))
          let st2 :=
            if oneAway then { st1 with snack := some "One away…" } else st1
          (.wrong oneAway,
            { st2 with mistakesRemaining := max 0 (st2.mistakesRemaining - 1) })
      | some sg =>
          (.correct,
            { st1 with
                groups := st1.groups ++
                  [⟨freshGroupId, sg.color, some sg.title, sg.tileIds⟩],
                tiles := st1.tiles.filter (fun t => !(sg.tileIds.contains t.id)),
                selected := [], selectedOrder := [] })

/-- `revealSolution` (Solve.tsx lines 1104-1120): commit every unsolved
solution group and empty the tile pool. `fresh` supplies the `uid` ids. -/
def revealSolution (fresh : Nat → String) (st : SolveState) : SolveState :=
  let solvedColors := st.groups.map (fun g => g.color)
  let toAdd := ((st.solutionGroups.filter
      (fun sg => !(solvedColors.contains sg.color))).enum).map
    (fun p => (⟨fresh p.1, p.2.color, some p.2.title, p.2.tileIds⟩ : PlayerGroup))
  { st with groups := st.groups ++ toAdd, tiles := [],
            selected := [], selectedOrder := [] }

/-- The `useEffect` on `mistakesRemaining` (Solve.tsx lines 1123-1141):
when mistakes hit zero with unsolved groups on a fully loaded puzzle, set
the failure flag, show the snack and auto-reveal the solution. -/
def runOutOfMistakesEffect (fresh : Nat → String) (st : SolveState) :
    SolveState :=
  if 0 < st.mistakesRemaining then st
  else if st.groups.length = 4 then st
  else if st.solutionGroups.length ≠ 4 then st
  else revealSolution fresh
    { st with didFail := true, snack := some "Better Luck Next Time!" }

/-- `resetAll` (Solve.tsx lines 1188-1200). -/
def resetAll (st : SolveState) : SolveState :=
  { st with tiles := st.baseTiles, groups := [], selected := [],
            selectedOrder := [], mistakesRemaining := 4, guesses := [],
            guessedKeys := [], snack := none, didFail := false }

/-! ## NYT puzzle document model (`NytConnectionsResponse`) -/

/-- One card of a document category: a text card, an image card, or a
runtime value of neither supported shape. -/
inductive NytCard where
  | text (content : String) (position : Int)
  | image (image_url : String) (image_alt_text : Option String)
      (position : Int)
  | other (position : Int)
deriving Repr, DecidableEq

/-- The `position` field, read by both converters. -/
def NytCard.position : NytCard → Int
  | .text _ p => p
  | .image _ _ p => p
  | .other p => p

/-- One category of a document. -/
structure NytCategory where
  title : String
  cards : List NytCard
deriving Repr, DecidableEq

/-- The document fields the Solve tab reads. -/
structure NytData where
  status : String
  id : Int
  print_date : String
  editor : String
  categories : List NytCategory
deriving Repr, DecidableEq

/-- JS `String.prototype.toUpperCase` on the program's strings. -/
def jsToUpper (s : String) : String :=
  String.mk (s.toList.map Char.toUpper)

/-- The derived tile identity `nyt_{documentId}_{position}`. -/
def nytTileId (docId : Int) (position : Int) : String :=
  "nyt_" ++ toString docId ++ "_" ++ toString position

/-- The per-card body of the `map` in `nytToTiles`, including its
`throw new Error("Unsupported NYT card type")` branch. -/
def cardToTile (docId : Int) (c : NytCard) : Except String Tile :=
  match c with
  | .text content p => .ok (.text (nytTileId docId p) (jsToUpper content))
  | .image url alt p =>
      .ok (.image (nytTileId docId p) url
        (jsToUpper (match alt with
          | some s => if s = "" then "image" else s
          | none => "image")))
  | .other _ => .error "Unsupported NYT card type"

/-- `.sort((a, b) => a.position - b.position)` (stable numeric sort). -/
def sortByPosition (cards : List NytCard) : List NytCard :=
  cards.insertionSort (fun a b => a.position ≤ b.position)

/-- `nytToTiles` (Solve.tsx lines 177-207): refuse a document whose
flattened card count is not 16, else convert cards in position order. -/
def nytToTiles (data : NytData) : Except String (List Tile) :=
  let allCards := (data.categories.map (fun c => c.cards)).flatten
  if allCards.length ≠ 16 then
    .error ("Expected 16 cards, got " ++ toString allCards.length)
  else
    (sortByPosition allCards).mapM (cardToTile data.id)

/-- `nytToSolutionGroups` (Solve.tsx lines 209-224): one group per
category, colored yellow/green/blue/purple by index (extra categories get
purple), tile ids in the category's card order. -/
def nytToSolutionGroups (data : NytData) : List SolGroup :=
  let colorByIndex := ["yellow", "green", "blue", "purple"]
  data.categories.enum.map (fun p =>
    { color := colorByIndex.getD p.1 "purple",
      title := p.2.title,
      tileIds := p.2.cards.map (fun c => nytTileId data.id c.position) })

/-- One document's load result: the `status !== "OK"` check of
`loadPuzzleByDate` followed by `applyLoadedPuzzle`'s conversions; an
`Except.error` is the signalled load failure (the thrown error that makes
the loader fall through / surface `setError`). -/
def loadDoc (data : NytData) : Except String (List Tile × List SolGroup) :=
  if data.status ≠ "OK" then .error ("Puzzle status not OK: " ++ data.status)
  else (nytToTiles data).map (fun t => (t, nytToSolutionGroups data))

/-- A fixed fresh-id supply for the sample runs. -/
def sampleFresh (n : Nat) : String := "fresh_" ++ toString n

/-- A concrete four-group solution used by the engine witnesses. -/
def sampleSolution : List SolGroup :=
  [⟨"yellow", "Easy", ["a", "b", "c", "d"]⟩,
   ⟨"green", "Medium-1", ["e", "f", "g", "h"]⟩,
   ⟨"blue", "Medium-2", ["i", "j", "k", "l"]⟩,
   ⟨"purple", "Hard", ["m", "n", "o", "p"]⟩]

/-- The tile pool for `sampleSolution`. -/
def sampleTiles : List Tile :=
  (["a", "b", "c", "d", "e", "f", "g", "h",
    "i", "j", "k", "l", "m", "n", "o", "p"]).map (fun i => Tile.text i i)

/-- A freshly loaded solve session over the sample puzzle. -/
def sampleState : SolveState :=
  ⟨sampleTiles, sampleTiles, [], sampleSolution, 4, [], [], [], [], none,
    false⟩

/-- A user re-selecting tiles between submissions (a `toggleSelect`
sequence ending with `sel` selected in that order). -/
def withSelection (sel : List String) (st : SolveState) : SolveState :=
  { st with selected := sel, selectedOrder := sel }

/-- Four successive wrong guesses on the sample puzzle (the selections
are re-picked between submissions, as `toggleSelect` would). -/
def chainState0 : SolveState := withSelection ["a", "b", "c", "e"] sampleState

/-- State after the first wrong guess, with the next selection picked. -/
def chainState1 : SolveState :=
  withSelection ["a", "b", "c", "f"] (onSubmit "g1" "q1" chainState0).2

/-- State after the second wrong guess. -/
def chainState2 : SolveState :=
  withSelection ["a", "b", "c", "g"] (onSubmit "g2" "q2" chainState1).2

/-- State after the third wrong guess. -/
def chainState3 : SolveState :=
  withSelection ["a", "b", "c", "h"] (onSubmit "g3" "q3" chainState2).2

/-- State after the fourth wrong guess: mistakes exhausted. -/
def chainState4 : SolveState := (onSubmit "g4" "q4" chainState3).2

/-- A card shape the converter supports (text or image). -/
def NytCard.supported : NytCard → Bool
  | .other _ => false
  | _ => true

/-- A well-formed 16-card document whose categories are NOT 4: two
categories of 8 cards each, positions 0-15, status OK. -/
def badCategoriesDoc : NytData :=
  { status := "OK", id := 7, print_date := "2024-06-01", editor := "E",
    categories :=
      [⟨"First", (List.range 8).map
          (fun i => NytCard.text ("w" ++ toString i) (i : Int))⟩,
       ⟨"Second", (List.range 8).map
          (fun i => NytCard.text ("v" ++ toString i) ((i + 8 : Nat) : Int))⟩] }

/-- A well-formed document: 4 categories of 4 cards, positions 0-15. -/
def goodDoc : NytData :=
  { status := "OK", id := 9, print_date := "2024-06-01", editor := "E",
    categories := (List.range 4).map (fun c =>
      ⟨"Cat" ++ toString c, (List.range 4).map
        (fun i => NytCard.text ("w" ++ toString (4 * c + i))
          ((4 * c + i : Nat) : Int))⟩) }

/-! ## Sync Job model (`scripts/fetch-connections-range.mjs`) -/

/-- The fields of a cached puzzle-document JSON the script reads. -/
structure CacheDoc where
  status : String
  print_date : String
  id : Int
  editor : String
deriving Repr, DecidableEq

/-- A cache file's content: a document-shaped JSON, or a file that
`JSON.parse` cannot read (`safeReadJson` returns null). -/
inductive FileContent where
  | doc (d : CacheDoc)
  | invalid
deriving Repr, DecidableEq

/-- The cache directory. A pair `(d, c)` is the file `{d}.json` with
content `c`; the list order is `readdir` order. The three manifest files
the script writes (`index.json`, `latest.json`, `available-dates.json`)
do not match the `\d{4}-\d{2}-\d{2}\.json` scan pattern and are kept as
separate outputs of the model. -/
abbrev FileSys : Type := List (String × FileContent)

/-- Read `{d}.json`. -/
def fsRead (fs : FileSys) (d : String) : Option FileContent :=
  List.lookup d fs

/-- `fs.writeFileSync` on `{d}.json`: replace the file or create it. -/
def fsWrite : FileSys → String → FileContent → FileSys
  | [], d, c => [(d, c)]
  | p :: rest, d, c =>
      if p.1 = d then (d, c) :: rest else p :: fsWrite rest d c

/-- One recorded result of the sync loop (a value of `index.available`).
Numeric HTTP statuses are recorded in string form; fields the source
leaves absent are `none`/`""`. -/
structure SyncEntry where
  ok : Bool
  printDate : String
  status : String
  statusText : String
  id : Option Int
  editor : Option String
  fromDisk : Bool
deriving Repr, DecidableEq

/-- The remote endpoint's response for one date, with no remote changes
between runs: a non-2xx HTTP response or a parsed JSON body. -/
inductive RemoteResult where
  | httpError (status : Int) (statusText : String)
  | json (d : CacheDoc)
deriving Repr, DecidableEq

/-- `fetchOne`: the recorded entry plus the file content written on
success (the `fs.writeFileSync(filePath, JSON.stringify(data))`). -/
def fetchOne (remote : String → RemoteResult) (printDate : String) :
    SyncEntry × Option CacheDoc :=
  match remote printDate with
  | .httpError s st =>
      ({ ok := false, printDate := printDate, status := toString s,
         statusText := st, id := none, editor := none, fromDisk := false },
       none)
  | .json d =>
      if d.status ≠ "OK" then
        ({ ok := false, printDate := printDate, status := "NOT_OK",
           statusText := d.status, id := none, editor := none,
           fromDisk := false }, none)
      else
        ({ ok := true, printDate := printDate, status := "",
           statusText := "", id := some d.id, editor := some d.editor,
           fromDisk := false }, some d)

/-- `resultFromExistingFile`: inspect the cached file for a date. -/
def resultFromExistingFile (fs : FileSys) (printDate : String) :
    Option SyncEntry :=
  match fsRead fs printDate with
  | none => none
  | some .invalid =>
      some { ok := false, printDate := printDate, status := "BAD_FILE",
             statusText := "Invalid JSON or status not OK", id := none,
             editor := none, fromDisk := false }
  | some (.doc d) =>
      if d.status ≠ "OK" then
        some { ok := false, printDate := printDate, status := "BAD_FILE",
               statusText := "Invalid JSON or status not OK", id := none,
               editor := none, fromDisk := false }
      else
        some { ok := true, printDate := printDate, status := "",
               statusText := "", id := some d.id, editor := some d.editor,
               fromDisk := true }

/-- One iteration of the date loop in `main`: skip the network when the
existing file is ok, else fetch and write on success. -/
def syncStep (remote : String → RemoteResult) (fs : FileSys)
    (printDate : String) : FileSys × SyncEntry :=
  match resultFromExistingFile fs printDate with
  | some e =>
      if e.ok then (fs, e)
      else
        match fetchOne remote printDate with
        | (entry, some d) => (fsWrite fs printDate (.doc d), entry)
        | (entry, none) => (fs, entry)
  | none =>
      match fetchOne remote printDate with
      | (entry, some d) => (fsWrite fs printDate (.doc d), entry)
      | (entry, none) => (fs, entry)

/-- The full date loop of `main`: the final cache directory and the
`index.available` entries in loop order. -/
def runSync (remote : String → RemoteResult) (dates : List String)
    (fs : FileSys) : FileSys × List (String × SyncEntry) :=
  dates.foldl (fun acc d =>
    ((syncStep remote acc.1 d).1, acc.2 ++ [(d, (syncStep remote acc.1 d).2)]))
    (fs, [])

/-- The cache directory after the date loop. -/
def runSyncFs (remote : String → RemoteResult) (dates : List String)
    (fs : FileSys) : FileSys :=
  dates.foldl (fun fs d => (syncStep remote fs d).1) fs

/-- The filename test `/^\d{4}-\d{2}-\d{2}\.json$/` on the date part of
`{d}.json`. -/
def isDateName (s : String) : Bool :=
  match s.toList with
  | [a, b, c, d, '-', e, f, '-', g, h] =>
      a.isDigit && b.isDigit && c.isDigit && d.isDigit &&
      e.isDigit && f.isDigit && g.isDigit && h.isDigit
  | _ => false

/-- `listAvailableDatesFromDisk`: re-scan the cache directory and keep a
date exactly when its file parses with status OK and an internal
`print_date` equal to the filename's date; ascending sort. -/
def listAvailableDatesFromDisk (fs : FileSys) : List String :=
  sortStrings (List.filterMap (fun p =>
    if isDateName p.1 then
      match p.2 with
      | FileContent.doc d =>
          if d.status = "OK" ∧ d.print_date = p.1 then some p.1 else none
      | FileContent.invalid => none
    else none) fs)

/-- The cache directory of the specification's integrity scenario. -/
def sampleCacheDir : FileSys :=
  [("2024-06-01", .doc ⟨"OK", "2024-06-01", 1, "E"⟩),
   ("2024-06-02", .doc ⟨"OK", "2024-06-03", 2, "E"⟩)]

/-- `{d}.json` exists, parses, and has status OK. -/
def goodFile (fs : FileSys) (d : String) : Prop :=
  ∃ doc, fsRead fs d = some (.doc doc) ∧ doc.status = "OK"

/-- A date is settled when its cache file is good or when the remote
offers nothing to write: processing it changes no file. -/
def settledDate (remote : String → RemoteResult) (fs : FileSys)
    (d : String) : Prop :=
  goodFile fs d ∨ (fetchOne remote d).2 = none

/-! ## Persisted solve progress model (`loadSavedSolveState`) -/

/-- A persisted `mistakesRemaining` value: an integral JS number, or a
value failing `typeof === "number" && Number.isFinite` (missing,
non-number, NaN, Infinity). Fractional doubles are already floored by
the source's `Math.floor`; the model carries the integer. -/
inductive RawNum where
  | fin (n : Int)
  | bad
deriving Repr, DecidableEq

/-- A raw persisted group record; `none` fields are missing or of the
wrong runtime type; the empty string is the falsy string. A `none` tile
entry is a non-string array element. -/
structure RawGroup where
  id : Option String
  color : Option String
  title : Option String
  tileIds : Option (List (Option String))
deriving Repr, DecidableEq

/-- A raw persisted guess-history row. -/
structure RawGuess where
  id : Option String
  colors : Option (List String)
deriving Repr, DecidableEq

/-- A raw persisted record (`SavedSolveState` after `JSON.parse`). -/
structure RawSaved where
  groups : Option (List RawGroup)
  guesses : Option (List RawGuess)
  guessedKeys : Option (List (Option String))
  mistakesRemaining : Option RawNum
  resultsDismissed : Bool
  didFail : Bool
deriving Repr, DecidableEq

/-- The persisted cookie: absent, JSON that fails to parse, or parsed. -/
inductive SavedCookie where
  | absent
  | malformedJson
  | parsed (s : RawSaved)
deriving Repr, DecidableEq

/-- What `loadSavedSolveState` returns. -/
structure LoadedSolveState where
  groups : List PlayerGroup
  guesses : List GuessRow
  guessedKeys : List String
  mistakesRemaining : Int
  resultsDismissed : Bool
  didFail : Bool
deriving Repr, DecidableEq

/-- The default (fresh) solve state of the no-cookie and catch paths. -/
def defaultLoaded : LoadedSolveState := ⟨[], [], [], 4, false, false⟩

/-- The per-group cleaning loop body: drop a group without a 4-element
tile array, with a falsy color, or with a non-string or unknown tile id;
a non-string id is replaced by a fresh uid. -/
def cleanGroup (validTileIds : List String) (freshId : String)
    (g : RawGroup) : Option PlayerGroup :=
  match g.tileIds with
  | none => none
  | some tids =>
      if tids.length ≠ 4 then none
      else match g.color with
        | none => none
        | some c =>
            if c = "" then none
            else if tids.any (fun t =>
                match t with
                | none => true
                | some id => !(validTileIds.contains id)) then none
            else some
              { id := match g.id with | some s => s | none => freshId,
                color := c,
                title := g.title,
                tileIds := tids.filterMap (fun t => t) }

/-- The guessed-keys cleaning loop body: keep strings splitting into
exactly 4 `|`-separated parts. -/
def cleanKey (k : Option String) : Option String :=
  match k with
  | none => none
  | some s => if (jsSplit '|' s).length ≠ 4 then none else some s

/-- The guess-row cleaning loop body: keep rows with a string id and a
4-element colors array; truthy colors only, at most 4. -/
def cleanGuess (gr : RawGuess) : Option GuessRow :=
  match gr.id, gr.colors with
  | some i, some cs =>
      if cs.length ≠ 4 then none
      else some ⟨i, (cs.filter (fun c => c ≠ "")).take 4⟩
  | _, _ => none

/-- `loadSavedSolveState` (Solve.tsx lines 311-400), with the `uid`
calls for groups lacking a string id supplied by `fresh`. -/
def loadSavedSolveState (fresh : Nat → String) (cookie : SavedCookie)
    (validTileIds : List String) : LoadedSolveState :=
  match cookie with
  | .absent => defaultLoaded
  | .malformedJson => defaultLoaded
  | .parsed p =>
      { groups := (p.groups.getD []).enum.filterMap
          (fun q => cleanGroup validTileIds (fresh q.1) q.2),
        guesses := (p.guesses.getD []).filterMap cleanGuess,
        guessedKeys := (p.guessedKeys.getD []).filterMap cleanKey,
        mistakesRemaining :=
          match p.mistakesRemaining with
          | some (RawNum.fin n) => max 0 (min 4 n)
          | _ => 4,
        resultsDismissed := false,
        didFail := p.didFail }

/-- The record `saveSolveState` writes: the passed state plus `v: 1`. -/
structure StoredSolveState where
  v : Int
  groups : List PlayerGroup
  guesses : List GuessRow
  guessedKeys : List String
  mistakesRemaining : Int
  resultsDismissed : Bool
  didFail : Bool
deriving Repr, DecidableEq

/-- `saveSolveState` (Solve.tsx lines 402-407): serialise the state with
a version tag; every field, `resultsDismissed` included, is written. -/
def saveSolveState (s : LoadedSolveState) : StoredSolveState :=
  ⟨1, s.groups, s.guesses, s.guessedKeys, s.mistakesRemaining,
   s.resultsDismissed, s.didFail⟩

/-- A deliberately damaged persisted record for the robustness witness. -/
def junkSaved : RawSaved :=
  { groups := some
      [⟨none, some "yellow", none,
         some [some "a", some "b", some "c", some "d"]⟩,
       ⟨some "g2", some "green", none, some [some "a", some "zzz"]⟩,
       ⟨some "g3", some "", none,
         some [some "a", some "b", some "c", some "d"]⟩,
       ⟨some "g4", some "blue", none, none⟩],
    guesses := some
      [⟨some "q1", some ["yellow", "green", "blue", "purple"]⟩,
       ⟨some "q2", some ["yellow"]⟩,
       ⟨none, some ["a", "b", "c", "d"]⟩],
    guessedKeys := some [some "a|b|c|d", some "a|b", none],
    mistakesRemaining := some (RawNum.fin 99),
    resultsDismissed := true,
    didFail := false }

theorem charListLe_total (as bs : List Char) :
    charListLe as bs = true ∨ charListLe bs as = true := by
  induction as generalizing bs with
  | nil => left; rfl
  | cons a as ih =>
      cases bs with
      | nil => right; rfl
      | cons b bs =>
          by_cases hab : a = b
          · subst hab
            rcases ih bs with h | h
            · left; simpa [charListLe] using h
            · right; simpa [charListLe] using h
          · rcases lt_trichotomy a b with h | h | h
            · left; simp [charListLe, hab, h]
            · exact absurd h hab
            · right; simp [charListLe, Ne.symm hab, h]

theorem charListLe_trans {as bs cs : List Char}
    (h₁ : charListLe as bs = true) (h₂ : charListLe bs cs = true) :
    charListLe as cs = true := by
  induction as generalizing bs cs with
  | nil => rfl
  | cons a as ih =>
      cases bs with
      | nil => simp [charListLe] at h₁
      | cons b bs =>
          cases cs with
          | nil => simp [charListLe] at h₂
          | cons c cs =>
              by_cases hab : a = b <;> by_cases hbc : b = c
              · subst hab; subst hbc
                simp only [charListLe, if_pos rfl] at h₁ h₂ ⊢
                exact ih h₁ h₂
              · subst hab
                simp only [charListLe, if_pos rfl] at h₁
                simpa [charListLe, hbc] using h₂
              · subst hbc
                simpa [charListLe, hab] using h₁
              · simp only [charListLe, if_neg hab, decide_eq_true_eq] at h₁
                simp only [charListLe, if_neg hbc, decide_eq_true_eq] at h₂
                have hac : a < c := lt_trans h₁ h₂
                simp [charListLe, ne_of_lt hac, hac]

theorem charListLe_antisymm {as bs : List Char}
    (h₁ : charListLe as bs = true) (h₂ : charListLe bs as = true) :
    as = bs := by
  induction as generalizing bs with
  | nil =>
      cases bs with
      | nil => rfl
      | cons b bs => simp [charListLe] at h₂
  | cons a as ih =>
      cases bs with
      | nil => simp [charListLe] at h₁
      | cons b bs =>
          by_cases hab : a = b
          · subst hab
            simp only [charListLe, if_pos rfl] at h₁ h₂
            exact congrArg _ (ih h₁ h₂)
          · simp only [charListLe, if_neg hab, decide_eq_true_eq] at h₁
            simp only [charListLe, if_neg (Ne.symm hab), decide_eq_true_eq] at h₂
            exact absurd h₂ (asymm h₁)

instance : IsTotal String StrLE :=
  ⟨fun a b => charListLe_total a.toList b.toList⟩

instance : IsTrans String StrLE :=
  ⟨fun _ _ _ h₁ h₂ => charListLe_trans h₁ h₂⟩

instance : IsAntisymm String StrLE :=
  ⟨fun a b h₁ h₂ => by
    cases a; cases b
    exact congrArg String.mk (charListLe_antisymm h₁ h₂)⟩

example : jsSplit '-' "2024-06-01" = ["2024", "06", "01"] := by decide
example : jsSplit '|' "a|b|c|d" = ["a", "b", "c", "d"] := by decide
example : jsSplit '|' "" = [""] := by decide

example : toDayNum "1970-01-01" = 0 := by decide
example : toDayNum "2024-06-01" = 19875 := by decide
example : toDayNum "2023-06-12" = 19520 := by decide

theorem charListLe_refl (as : List Char) : charListLe as as = true := by
  induction as with
  | nil => rfl
  | cons a as ih => simp [charListLe, ih]

theorem strLe_refl (s : String) : StrLE s s :=
  charListLe_refl s.toList

/-- The scan result is the seed or one of the scanned dates. -/
theorem scanBest_mem (t : Int) (b : String) (db : Int) (ds : List String) :
    scanBest t b db ds ∈ b :: ds := by
  induction ds generalizing b db with
  | nil => simp [scanBest]
  | cons d ds ih =>
      simp only [scanBest]
      by_cases h : distTo t d < db
      · simp only [if_pos h]
        exact List.mem_cons_of_mem _ (ih d (distTo t d))
      · simp only [if_neg h]
        rcases List.mem_cons.mp (ih b db) with h' | h'
        · rw [h']; exact List.mem_cons_self _ _
        · exact List.mem_cons_of_mem _ (List.mem_cons_of_mem _ h')

/-- The scan result minimises the day distance over the seed and the
scanned dates. -/
theorem scanBest_dist_le (t : Int) (b : String) (db : Int) (ds : List String)
    (hdb : db = distTo t b) :
    ∀ x ∈ b :: ds, distTo t (scanBest t b db ds) ≤ distTo t x := by
  induction ds generalizing b db with
  | nil =>
      intro x hx
      rcases List.mem_cons.mp hx with rfl | h
      · simp [scanBest]
      · exact absurd h (List.not_mem_nil x)
  | cons d ds ih =>
      intro x hx
      simp only [scanBest]
      by_cases h : distTo t d < db
      · simp only [if_pos h]
        rcases List.mem_cons.mp hx with rfl | hx'
        · calc distTo t (scanBest t d (distTo t d) ds)
              ≤ distTo t d := ih d (distTo t d) rfl d (List.mem_cons_self d ds)
            _ ≤ distTo t x := le_of_lt (hdb ▸ h)
        · exact ih d (distTo t d) rfl x hx'
      · simp only [if_neg h]
        rcases List.mem_cons.mp hx with rfl | hx'
        · exact ih x db hdb x (List.mem_cons_self x ds)
        · rcases List.mem_cons.mp hx' with rfl | hx''
          · calc distTo t (scanBest t b db ds)
                ≤ distTo t b := ih b db hdb b (List.mem_cons_self b ds)
              _ ≤ distTo t x := by rw [← hdb]; exact le_of_not_lt h
          · exact ih b db hdb x (List.mem_cons_of_mem _ hx'')

/-- The scan either keeps the seed or strictly improves on the seed
distance: it never replaces the best by a merely tying date. -/
theorem scanBest_eq_or_lt (t : Int) (b : String) (db : Int) (ds : List String) :
    scanBest t b db ds = b ∨ distTo t (scanBest t b db ds) < db := by
  induction ds generalizing b db with
  | nil => left; rfl
  | cons d ds ih =>
      simp only [scanBest]
      by_cases h : distTo t d < db
      · simp only [if_pos h]
        rcases ih d (distTo t d) with h' | h'
        · right; rw [h']; exact h
        · right; exact lt_trans h' h
      · simp only [if_neg h]
        exact ih b db

/-- Tie-break: on a sorted input, a date tying the minimal distance is at
or after the scan result in the sort order. -/
theorem scanBest_tie (t : Int) (b : String) (db : Int) (ds : List String)
    (hdb : db = distTo t b) (hs : List.Sorted StrLE (b :: ds)) :
    ∀ x ∈ b :: ds, distTo t x = distTo t (scanBest t b db ds) →
      StrLE (scanBest t b db ds) x := by
  induction ds generalizing b db with
  | nil =>
      intro x hx _
      rcases List.mem_cons.mp hx with rfl | h
      · simp only [scanBest]; exact strLe_refl x
      · exact absurd h (List.not_mem_nil x)
  | cons d ds ih =>
      intro x hx htie
      simp only [scanBest] at htie ⊢
      by_cases h : distTo t d < db
      · simp only [if_pos h] at htie ⊢
        rcases List.mem_cons.mp hx with rfl | hx'
        · exfalso
          have hle : distTo t (scanBest t d (distTo t d) ds) ≤ distTo t d :=
            scanBest_dist_le t d (distTo t d) ds rfl d (List.mem_cons_self d ds)
          have : distTo t x ≤ distTo t d := htie ▸ hle
          exact absurd (lt_of_le_of_lt this (hdb ▸ h)) (lt_irrefl _)
        · exact ih d (distTo t d) rfl (List.Sorted.of_cons hs) x hx' htie
      · simp only [if_neg h] at htie ⊢
        have hsbd : List.Sorted StrLE (b :: ds) := by
          rw [List.sorted_cons] at hs ⊢
          exact ⟨fun y hy => hs.1 y (List.mem_cons_of_mem _ hy),
            (List.sorted_cons.mp hs.2).2⟩
        rcases List.mem_cons.mp hx with rfl | hx'
        · exact ih x db hdb hsbd x (List.mem_cons_self x ds) htie
        · rcases List.mem_cons.mp hx' with rfl | hx''
          · rcases scanBest_eq_or_lt t b db ds with he | hlt
            · rw [he]
              exact (List.sorted_cons.mp hs).1 x (List.mem_cons_self x ds)
            · exfalso
              have : distTo t x < db := htie ▸ hlt
              exact absurd (lt_of_le_of_lt (le_of_not_lt h) this) (lt_irrefl _)
          · exact ih b db hdb hsbd x (List.mem_cons_of_mem _ hx'') htie

theorem okDatesSorted_sorted (index : NytIndex) :
    List.Sorted StrLE (okDatesSorted index) :=
  List.sorted_insertionSort StrLE _

theorem mem_okDatesSorted (index : NytIndex) (d : String) :
    d ∈ okDatesSorted index ↔
      ∃ k e, (k, e) ∈ index.available ∧ e.ok = true ∧ e.printDate = d := by
  rw [okDatesSorted, sortStrings,
    (List.perm_insertionSort StrLE _).mem_iff, List.mem_map]
  constructor
  · rintro ⟨p, hp, rfl⟩
    exact ⟨p.1, p.2, (List.mem_filter.mp hp).1,
      by simpa using (List.mem_filter.mp hp).2, rfl⟩
  · rintro ⟨k, e, hmem, hok, rfl⟩
    exact ⟨(k, e), List.mem_filter.mpr ⟨hmem, by simpa using hok⟩, rfl⟩

theorem availLookup_mem {avail : List (String × IndexEntry)} {k : String}
    {e : IndexEntry} (h : availLookup avail k = some e) : (k, e) ∈ avail := by
  induction avail with
  | nil => simp [availLookup, List.lookup] at h
  | cons p rest ih =>
      by_cases hk : k = p.1
      · subst hk
        simp only [availLookup, List.lookup, beq_self_eq_true] at h
        rw [Option.some.injEq] at h
        rw [← h]
        simp
      · have hkb : (k == p.1) = false := by simpa using hk
        simp only [availLookup, List.lookup, hkb] at h
        exact List.mem_cons_of_mem _ (ih h)

theorem okDatesSorted_nil_iff (index : NytIndex) :
    okDatesSorted index = [] ↔
      (index.available.any (fun p => p.2.ok)) = false := by
  constructor
  · intro h
    by_contra hany
    rw [Bool.not_eq_false, List.any_eq_true] at hany
    obtain ⟨p, hp, hok⟩ := hany
    have : p.2.printDate ∈ okDatesSorted index :=
      (mem_okDatesSorted index _).mpr ⟨p.1, p.2, hp, by simpa using hok, rfl⟩
    rw [h] at this
    exact absurd this (List.not_mem_nil _)
  · intro h
    rw [okDatesSorted, sortStrings]
    have : (index.available.filter (fun p => p.2.ok)) = [] := by
      rw [List.filter_eq_nil_iff]
      intro p hp
      intro hok
      rw [List.any_eq_false] at h
      exact absurd hok (by simpa using h p hp)
    rw [this]
    rfl
example :
    pickBestDateFromIndex
      ⟨"2024-06-02", [("2024-06-01", ⟨true, "2024-06-01"⟩)]⟩
      "2024-06-01" = some "2024-06-01" := by decide
example :
    pickBestDateFromIndex
      ⟨"2024-06-02", [("2024-06-01", ⟨false, "2024-06-01"⟩)]⟩
      "2024-06-03" = none := by decide

theorem isOkEntry_false_of_no_ok {avail : List (String × IndexEntry)}
    (k : String) (hno : (avail.any (fun p => p.2.ok)) = false) :
    isOkEntry (availLookup avail k) = false := by
  cases hl : availLookup avail k with
  | none => rfl
  | some e =>
      cases he : e.ok with
      | false => simpa [isOkEntry] using he
      | true =>
          exfalso
          have hmem : (k, e) ∈ avail := availLookup_mem hl
          rw [List.any_eq_false] at hno
          exact absurd he (by simpa using hno (k, e) hmem)

/-- C1: best-date resolution follows the strict priority order — the ok
requested date, else the ok anchor date, else the ok date of minimal
absolute UTC day distance with ties broken by the earliest date of the
ascending sort, and `none` exactly when no ok dates exist. -/
theorem pickBestDateFromIndex_resolution (index : NytIndex)
    (preferredDate : String) :
    (isOkEntry (availLookup index.available preferredDate) = true →
        pickBestDateFromIndex index preferredDate = some preferredDate)
  ∧ (isOkEntry (availLookup index.available preferredDate) = false →
      index.anchor_print_date ≠ "" →
      isOkEntry (availLookup index.available index.anchor_print_date) = true →
        pickBestDateFromIndex index preferredDate =
          some index.anchor_print_date)
  ∧ (isOkEntry (availLookup index.available preferredDate) = false →
      (index.anchor_print_date = "" ∨
        isOkEntry (availLookup index.available index.anchor_print_date) =
          false) →
      okDatesSorted index ≠ [] →
      ∃ b, pickBestDateFromIndex index preferredDate = some b ∧
        b ∈ okDatesSorted index ∧
        (∀ x ∈ okDatesSorted index,
          |toDayNum b - toDayNum preferredDate| ≤
            |toDayNum x - toDayNum preferredDate|) ∧
        (∀ x ∈ okDatesSorted index,
          |toDayNum x - toDayNum preferredDate| =
              |toDayNum b - toDayNum preferredDate| →
            StrLE b x))
  ∧ (pickBestDateFromIndex index preferredDate = none ↔
      (index.available.any (fun p => p.2.ok)) = false)
  ∧ (∀ d, d ∈ okDatesSorted index ↔
      ∃ k e, (k, e) ∈ index.available ∧ e.ok = true ∧ e.printDate = d) := by
  refine ⟨?_, ?_, ?_, ?_, mem_okDatesSorted index⟩
  · intro h
    simp [pickBestDateFromIndex, h]
  · intro h1 h2 h3
    simp [pickBestDateFromIndex, h1, h2, h3]
  · intro h1 h2 h3
    obtain ⟨d0, rest, hok⟩ : ∃ d0 rest, okDatesSorted index = d0 :: rest := by
      cases hcase : okDatesSorted index with
      | nil => exact absurd hcase h3
      | cons d0 rest => exact ⟨d0, rest, rfl⟩
    have hcond2 : (decide (index.anchor_print_date ≠ "") &&
        isOkEntry (availLookup index.available index.anchor_print_date)) =
          false := by
      rcases h2 with h | h
      · simp [h]
      · simp [h]
    set t := toDayNum preferredDate with ht
    set b := scanBest t d0 (distTo t d0) (d0 :: rest) with hb
    have hpick : pickBestDateFromIndex index preferredDate = some b := by
      simp only [pickBestDateFromIndex, h1, Bool.false_eq_true, if_false,
        hcond2, hok]
    have hsorted : List.Sorted StrLE (d0 :: rest) := by
      rw [← hok]; exact okDatesSorted_sorted index
    have hsorted2 : List.Sorted StrLE (d0 :: d0 :: rest) := by
      rw [List.sorted_cons]
      refine ⟨?_, hsorted⟩
      intro y hy
      rcases List.mem_cons.mp hy with rfl | hy'
      · exact strLe_refl y
      · exact (List.sorted_cons.mp hsorted).1 y hy'
    have hmem : b ∈ okDatesSorted index := by
      rw [hok]
      have hm := scanBest_mem t d0 (distTo t d0) (d0 :: rest)
      rw [← hb] at hm
      rcases List.mem_cons.mp hm with h | h
      · rw [h]; exact List.mem_cons_self _ _
      · exact h
    refine ⟨b, hpick, hmem, ?_, ?_⟩
    · intro x hx
      have := scanBest_dist_le t d0 (distTo t d0) (d0 :: rest) rfl x
        (by rw [hok] at hx; exact List.mem_cons_of_mem _ hx)
      simpa [distTo, ht] using this
    · intro x hx htie
      have := scanBest_tie t d0 (distTo t d0) (d0 :: rest) rfl hsorted2 x
        (by rw [hok] at hx; exact List.mem_cons_of_mem _ hx)
        (by simpa [distTo, ht] using htie)
      exact this
  · constructor
    · intro hnone
      by_contra hany
      rw [Bool.not_eq_false] at hany
      have hne : okDatesSorted index ≠ [] := by
        intro hnil
        rw [okDatesSorted_nil_iff] at hnil
        rw [hnil] at hany
        exact absurd hany (by simp)
      obtain ⟨d0, rest, hok⟩ : ∃ d0 rest, okDatesSorted index = d0 :: rest := by
        cases hcase : okDatesSorted index with
        | nil => exact absurd hcase hne
        | cons d0 rest => exact ⟨d0, rest, rfl⟩
      rw [pickBestDateFromIndex] at hnone
      split at hnone
      · exact absurd hnone (by simp)
      · split at hnone
        · exact absurd hnone (by simp)
        · rw [hok] at hnone
          exact absurd hnone (by simp)
    · intro hfalse
      have h1 := isOkEntry_false_of_no_ok preferredDate hfalse
      have h2 := isOkEntry_false_of_no_ok index.anchor_print_date hfalse
      have hnil : okDatesSorted index = [] :=
        (okDatesSorted_nil_iff index).mpr hfalse
      simp [pickBestDateFromIndex, h1, h2, hnil]

theorem pickBestDateFromIndex_resolution_witness :
    (pickBestDateFromIndex sampleIndexA "2024-06-01" = some "2024-06-01")
  ∧ (pickBestDateFromIndex sampleIndexB "2024-07-01" = some "2024-06-01")
  ∧ (∃ b, pickBestDateFromIndex sampleIndexA "2024-06-03" = some b ∧
      b ∈ okDatesSorted sampleIndexA ∧
      (∀ x ∈ okDatesSorted sampleIndexA,
          |toDayNum b - toDayNum "2024-06-03"| ≤
            |toDayNum x - toDayNum "2024-06-03"|)) := by
  refine ⟨?_, ?_, ?_⟩
  · exact (pickBestDateFromIndex_resolution sampleIndexA "2024-06-01").1
      (by decide)
  · exact (pickBestDateFromIndex_resolution sampleIndexB "2024-07-01").2.1
      (by decide) (by decide) (by decide)
  · obtain ⟨b, hpick, hmem, hmin, _⟩ :=
      (pickBestDateFromIndex_resolution sampleIndexA "2024-06-03").2.2.1
        (by decide) (Or.inr (by decide)) (by decide)
    exact ⟨b, hpick, hmem, hmin⟩

example : guessKeyOf ["d", "c", "b", "a"] = "a|b|c|d" := by decide
example :
    (onSubmit "g1" "q1" (withSelection ["b", "a", "d", "c"] sampleState)).1 =
      SubmitOutcome.correct := by decide
example :
    (onSubmit "g1" "q1" (withSelection ["a", "b", "c", "e"] sampleState)).1 =
      SubmitOutcome.wrong true := by decide
example :
    (onSubmit "g1" "q1" (withSelection ["a", "b", "e", "f"] sampleState)).1 =
      SubmitOutcome.wrong false := by decide
example :
    (onSubmit "g1" "q1" (withSelection ["a", "b", "c", "e"]
      { sampleState with guessedKeys := ["a|b|c|e"] })).1 =
      SubmitOutcome.duplicate := by decide

theorem string_contains_iff {l : List String} {a : String} :
    l.contains a = true ↔ a ∈ l := by
  induction l with
  | nil => simp
  | cons b bs ih =>
      rw [List.contains_cons, Bool.or_eq_true, beq_iff_eq, List.mem_cons, ih]

theorem filter_contains_self (l : List String) :
    l.filter (fun id => l.contains id) = l := by
  rw [List.filter_eq_self]
  intro a ha
  exact string_contains_iff.mpr ha

theorem sortStrings_perm (l : List String) : (sortStrings l).Perm l :=
  List.perm_insertionSort StrLE l

theorem sortStrings_sorted (l : List String) :
    List.Sorted StrLE (sortStrings l) :=
  List.sorted_insertionSort StrLE l

theorem sortStrings_congr {l₁ l₂ : List String} (h : l₁.Perm l₂) :
    sortStrings l₁ = sortStrings l₂ :=
  List.eq_of_perm_of_sorted
    ((sortStrings_perm l₁).trans (h.trans (sortStrings_perm l₂).symm))
    (sortStrings_sorted l₁) (sortStrings_sorted l₂)

theorem matchesSorted_self (l : List String) : matchesSorted l l = true := by
  induction l with
  | nil => rfl
  | cons a as ih => simp [matchesSorted, ih]

theorem matchesSorted_iff_eq {a b : List String} (h : a.length = b.length) :
    matchesSorted a b = true ↔ a = b := by
  induction a generalizing b with
  | nil =>
      cases b with
      | nil => simp [matchesSorted]
      | cons y ys => simp at h
  | cons x xs ih =>
      cases b with
      | nil => simp at h
      | cons y ys =>
          simp only [List.length_cons, Nat.add_right_cancel_iff] at h
          simp [matchesSorted, ih h, beq_iff_eq]

theorem matches_iff_perm {l₁ l₂ : List String} (h : l₁.length = l₂.length) :
    matchesSorted (sortStrings l₁) (sortStrings l₂) = true ↔ l₁.Perm l₂ := by
  have hlen : (sortStrings l₁).length = (sortStrings l₂).length := by
    rw [(sortStrings_perm l₁).length_eq, (sortStrings_perm l₂).length_eq, h]
  rw [matchesSorted_iff_eq hlen]
  constructor
  · intro he
    exact (sortStrings_perm l₁).symm.trans (he ▸ sortStrings_perm l₂)
  · exact sortStrings_congr

/-- C3: the guess fingerprint is order-independent — permuted selections
produce the same fingerprint — and a submission whose fingerprint is
already in the attempted set is rejected: `duplicate` outcome with the
"Already guessed" signal, and the state unchanged apart from that snack
(no mistake decrement, no group change, selection preserved). -/
theorem guessKey_order_independent_duplicate_rejected :
    (∀ ids₁ ids₂ : List String, ids₁.Perm ids₂ →
      guessKeyOf ids₁ = guessKeyOf ids₂)
  ∧ (∀ (gid qid : String) (st : SolveState),
      st.selected.length = 4 →
      0 < st.mistakesRemaining →
      st.selectedOrder = st.selected →
      guessKeyOf st.selected ∈ st.guessedKeys →
      onSubmit gid qid st =
        (.duplicate, { st with snack := some "Already guessed" })) := by
  constructor
  · intro ids₁ ids₂ h
    unfold guessKeyOf
    rw [sortStrings_congr h]
  · intro gid qid st hsel4 hmr hord hdup
    have h1 : ¬ st.selected.length ≠ 4 := by rw [hsel4]; intro h; exact h rfl
    have h2 : ¬ st.mistakesRemaining ≤ 0 := not_le.mpr hmr
    have hfilter :
        st.selectedOrder.filter (fun id => st.selected.contains id) =
          st.selected := by
      rw [hord]; exact filter_contains_self st.selected
    have hkey : st.guessedKeys.contains
        (String.intercalate "|" (sortStrings st.selected)) = true :=
      string_contains_iff.mpr hdup
    unfold onSubmit
    rw [if_neg h1, if_neg h2]
    simp only [hfilter, hsel4, ite_self]
    rw [if_pos hkey]

theorem guessKey_order_independent_duplicate_rejected_witness :
    (guessKeyOf ["a", "b", "c", "d"] = guessKeyOf ["d", "c", "b", "a"])
  ∧ (onSubmit "g1" "q1" (withSelection ["d", "c", "b", "a"]
        { sampleState with guessedKeys := ["a|b|c|d"] }) =
      (.duplicate, { (withSelection ["d", "c", "b", "a"]
        { sampleState with guessedKeys := ["a|b|c|d"] }) with
          snack := some "Already guessed" })) := by
  constructor
  · exact guessKey_order_independent_duplicate_rejected.1
      ["a", "b", "c", "d"] ["d", "c", "b", "a"] (by decide)
  · exact guessKey_order_independent_duplicate_rejected.2 "g1" "q1"
      (withSelection ["d", "c", "b", "a"]
        { sampleState with guessedKeys := ["a|b|c|d"] })
      (by decide) (by decide) (by decide) (by decide)

/-- C5: for an evaluated incorrect non-duplicate submission, the
"One away…" signal fires exactly when some unsolved solution group has
exactly 3 of its tile ids in the selection, and the submission costs one
mistake either way. -/
theorem onSubmit_one_away_signal (gid qid : String) (st : SolveState)
    (hsel4 : st.selected.length = 4)
    (hmr : 0 < st.mistakesRemaining)
    (hord : st.selectedOrder = st.selected)
    (hnew : guessKeyOf st.selected ∉ st.guessedKeys)
    (hlen : ∀ sg ∈ st.solutionGroups, sg.tileIds.length = 4)
    (hincorrect : ∀ sg ∈ st.solutionGroups,
      (∀ g ∈ st.groups, g.color ≠ sg.color) → ¬ st.selected.Perm sg.tileIds) :
    ((onSubmit gid qid st).1 = .wrong true ↔
      ∃ sg ∈ st.solutionGroups, (∀ g ∈ st.groups, g.color ≠ sg.color) ∧
        sg.tileIds.countP (fun id => st.selected.contains id) = 3)
  ∧ (∃ b, (onSubmit gid qid st).1 = .wrong b)
  ∧ (onSubmit gid qid st).2.mistakesRemaining = st.mistakesRemaining - 1 := by
  have h1 : ¬ st.selected.length ≠ 4 := by rw [hsel4]; intro h; exact h rfl
  have h2 : ¬ st.mistakesRemaining ≤ 0 := not_le.mpr hmr
  have hfilter :
      st.selectedOrder.filter (fun id => st.selected.contains id) =
        st.selected := by
    rw [hord]; exact filter_contains_self st.selected
  have hkeyn : ¬ (st.guessedKeys.contains
      (String.intercalate "|" (sortStrings st.selected)) = true) := by
    intro hc
    exact hnew (string_contains_iff.mp hc)
  have hfound : st.solutionGroups.find? (fun sg =>
      !(st.groups.any (fun g => g.color == sg.color)) &&
      matchesSorted (sortStrings sg.tileIds) (sortStrings st.selected)) =
        none := by
    rw [List.find?_eq_none]
    intro sg hsg hpred
    rw [Bool.and_eq_true] at hpred
    obtain ⟨hunsb, hmatch⟩ := hpred
    have hunsolved : ∀ g ∈ st.groups, g.color ≠ sg.color := by
      rw [Bool.not_eq_eq_eq_not, Bool.not_true, List.any_eq_false] at hunsb
      intro g hg
      have := hunsb g hg
      simpa using this
    have hperm : st.selected.Perm sg.tileIds := by
      have hl : sg.tileIds.length = st.selected.length := by
        rw [hsel4, hlen sg hsg]
      exact ((matches_iff_perm hl).mp hmatch).symm
    exact hincorrect sg hsg hunsolved hperm
  have hfst : (onSubmit gid qid st).1 =
      .wrong (st.solutionGroups.any (fun sg =>
        !(st.groups.any (fun g => g.color == sg.color)) &&
        ((sg.tileIds.countP (fun id => st.selected.contains id)) == 3))) := by
    unfold onSubmit
    rw [if_neg h1, if_neg h2]
    simp only [hfilter, hsel4, ite_self]
    rw [if_neg hkeyn, hfound]
  have hsnd : (onSubmit gid qid st).2.mistakesRemaining =
      st.mistakesRemaining - 1 := by
    unfold onSubmit
    rw [if_neg h1, if_neg h2]
    simp only [hfilter, hsel4, ite_self]
    rw [if_neg hkeyn, hfound]
    simp only [List.length_map, List.length_take, hsel4, Nat.min_self]
    by_cases hoa : (st.solutionGroups.any (fun sg =>
        !(st.groups.any (fun g => g.color == sg.color)) &&
        ((sg.tileIds.countP (fun id => st.selected.contains id)) == 3))) = true
    · rw [if_pos hoa]
      show max 0 (st.mistakesRemaining - 1) = st.mistakesRemaining - 1
      omega
    · rw [if_neg hoa]
      show max 0 (st.mistakesRemaining - 1) = st.mistakesRemaining - 1
      omega
  refine ⟨?_, ⟨_, hfst⟩, hsnd⟩
  rw [hfst]
  simp only [SubmitOutcome.wrong.injEq, List.any_eq_true, Bool.and_eq_true,
    beq_iff_eq, Bool.not_eq_eq_eq_not, Bool.not_true, List.any_eq_false]

theorem onSubmit_one_away_signal_witness :
    ((onSubmit "g1" "q1" (withSelection ["a", "b", "c", "e"] sampleState)).1 =
        SubmitOutcome.wrong true ↔
      ∃ sg ∈ (withSelection ["a", "b", "c", "e"] sampleState).solutionGroups,
        (∀ g ∈ (withSelection ["a", "b", "c", "e"] sampleState).groups,
          g.color ≠ sg.color) ∧
        sg.tileIds.countP (fun id =>
          (withSelection ["a", "b", "c", "e"] sampleState).selected.contains
            id) = 3)
  ∧ (onSubmit "g1" "q1"
        (withSelection ["a", "b", "c", "e"] sampleState)).2.mistakesRemaining =
      (withSelection ["a", "b", "c", "e"] sampleState).mistakesRemaining -
        1 := by
  have h := onSubmit_one_away_signal "g1" "q1"
    (withSelection ["a", "b", "c", "e"] sampleState)
    (by decide) (by decide) (by decide) (by decide) (by decide) (by decide)
  exact ⟨h.1, h.2.2⟩

theorem find?_first {α : Type} (p : α → Bool) (l₁ l₂ : List α) (a : α)
    (h₁ : ∀ x ∈ l₁, p x = false) (h₂ : p a = true) :
    (l₁ ++ a :: l₂).find? p = some a := by
  induction l₁ with
  | nil => simpa [List.find?_cons] using List.find?_cons_of_pos l₂ h₂
  | cons x xs ih =>
      rw [List.cons_append, List.find?_cons_of_neg]
      · exact ih (fun y hy => h₁ y (List.mem_cons_of_mem _ hy))
      · rw [h₁ x (List.mem_cons_self _ _)]
        exact Bool.false_ne_true

/-- C2: a 4-tile submission whose tile-identity set equals an unsolved
answer group's commits a new player group with that group's color and
title and its tiles in canonical order, removes exactly those tiles from
the pool, and leaves the mistakes counter unchanged. -/
theorem onSubmit_correct_commit (gid qid : String) (st : SolveState)
    (sg : SolGroup)
    (hsg : sg ∈ st.solutionGroups)
    (hsel4 : st.selected.length = 4)
    (hmr : 0 < st.mistakesRemaining)
    (hord : st.selectedOrder = st.selected)
    (hnew : guessKeyOf st.selected ∉ st.guessedKeys)
    (hperm : st.selected.Perm sg.tileIds)
    (hunsolved : ∀ g ∈ st.groups, g.color ≠ sg.color)
    (hlen : ∀ s ∈ st.solutionGroups, s.tileIds.length = 4)
    (hdisj : st.solutionGroups.Pairwise
      (fun s1 s2 => ∀ x ∈ s1.tileIds, x ∉ s2.tileIds)) :
    (onSubmit gid qid st).1 = .correct
  ∧ (onSubmit gid qid st).2.groups =
      st.groups ++ [⟨gid, sg.color, some sg.title, sg.tileIds⟩]
  ∧ (onSubmit gid qid st).2.tiles =
      st.tiles.filter (fun t => !(sg.tileIds.contains t.id))
  ∧ (onSubmit gid qid st).2.mistakesRemaining = st.mistakesRemaining := by
  have h1 : ¬ st.selected.length ≠ 4 := by rw [hsel4]; intro h; exact h rfl
  have h2 : ¬ st.mistakesRemaining ≤ 0 := not_le.mpr hmr
  have hfilter :
      st.selectedOrder.filter (fun id => st.selected.contains id) =
        st.selected := by
    rw [hord]; exact filter_contains_self st.selected
  have hkeyn : ¬ (st.guessedKeys.contains
      (String.intercalate "|" (sortStrings st.selected)) = true) := by
    intro hc
    exact hnew (string_contains_iff.mp hc)
  obtain ⟨l₁, l₂, hdecomp⟩ := List.append_of_mem hsg
  have hcross : ∀ a ∈ l₁, ∀ b ∈ sg :: l₂, ∀ x ∈ a.tileIds, x ∉ b.tileIds := by
    have := hdecomp ▸ hdisj
    exact (List.pairwise_append.mp this).2.2
  have hfound : st.solutionGroups.find? (fun s =>
      !(st.groups.any (fun g => g.color == s.color)) &&
      matchesSorted (sortStrings s.tileIds) (sortStrings st.selected)) =
        some sg := by
    rw [hdecomp]
    apply find?_first
    · intro s' hs'
      have hs'mem : s' ∈ st.solutionGroups := by
        rw [hdecomp]; exact List.mem_append_left _ hs'
      cases hmB : matchesSorted (sortStrings s'.tileIds)
          (sortStrings st.selected) with
      | false => rw [Bool.and_false]
      | true =>
          exfalso
          have hp1 : s'.tileIds.Perm st.selected :=
            (matches_iff_perm (by rw [hlen s' hs'mem, hsel4])).mp hmB
          have hp2 : s'.tileIds.Perm sg.tileIds := hp1.trans hperm
          have hpos : 0 < s'.tileIds.length := by
            rw [hlen s' hs'mem]; omega
          obtain ⟨x, hx⟩ := List.exists_mem_of_length_pos hpos
          exact hcross s' hs' sg (List.mem_cons_self _ _) x hx (hp2.subset hx)
    · rw [Bool.and_eq_true]
      constructor
      · rw [Bool.not_eq_eq_eq_not, Bool.not_true, List.any_eq_false]
        intro g hg
        simpa using hunsolved g hg
      · rw [sortStrings_congr hperm.symm]
        exact matchesSorted_self _
  refine ⟨?_, ?_, ?_, ?_⟩
  · unfold onSubmit
    rw [if_neg h1, if_neg h2]
    simp only [hfilter, hsel4, ite_self]
    rw [if_neg hkeyn, hfound]
  · unfold onSubmit
    rw [if_neg h1, if_neg h2]
    simp only [hfilter, hsel4, ite_self]
    rw [if_neg hkeyn, hfound]
    simp only [List.length_map, List.length_take, hsel4, Nat.min_self]
    rfl
  · unfold onSubmit
    rw [if_neg h1, if_neg h2]
    simp only [hfilter, hsel4, ite_self]
    rw [if_neg hkeyn, hfound]
    simp only [List.length_map, List.length_take, hsel4, Nat.min_self]
    rfl
  · unfold onSubmit
    rw [if_neg h1, if_neg h2]
    simp only [hfilter, hsel4, ite_self]
    rw [if_neg hkeyn, hfound]
    simp only [List.length_map, List.length_take, hsel4, Nat.min_self]
    rfl

theorem onSubmit_correct_commit_witness :
    (onSubmit "g1" "q1" (withSelection ["b", "a", "d", "c"] sampleState)).1 =
      SubmitOutcome.correct
  ∧ (onSubmit "g1" "q1"
        (withSelection ["b", "a", "d", "c"] sampleState)).2.groups =
      (withSelection ["b", "a", "d", "c"] sampleState).groups ++
        [⟨"g1", "yellow", some "Easy", ["a", "b", "c", "d"]⟩]
  ∧ (onSubmit "g1" "q1"
        (withSelection ["b", "a", "d", "c"] sampleState)).2.mistakesRemaining =
      (withSelection ["b", "a", "d", "c"] sampleState).mistakesRemaining := by
  have h := onSubmit_correct_commit "g1" "q1"
    (withSelection ["b", "a", "d", "c"] sampleState)
    ⟨"yellow", "Easy", ["a", "b", "c", "d"]⟩
    (by decide) (by decide) (by decide) (by decide) (by decide) (by decide)
    (by decide) (by decide) (by decide)
  exact ⟨h.1, h.2.1, h.2.2.2⟩

/-- An incorrect evaluated submission happens only with a positive
mistake counter and decrements it by exactly one. -/
theorem onSubmit_wrong_mistakes (gid qid : String) (st : SolveState)
    (b : Bool) (hout : (onSubmit gid qid st).1 = .wrong b) :
    0 < st.mistakesRemaining ∧
    (onSubmit gid qid st).2.mistakesRemaining = st.mistakesRemaining - 1 := by
  revert hout
  simp only [onSubmit]
  split
  · intro h; exact absurd h (by simp)
  · split
    · intro h; exact absurd h (by simp)
    · split
      all_goals
        split
        · intro h; exact absurd h (by simp)
        · split
          · intro _
            refine ⟨by omega, ?_⟩
            split
            all_goals split
            all_goals
              show max 0 (st.mistakesRemaining - 1) =
                st.mistakesRemaining - 1
              omega
          · intro h; exact absurd h (by simp)

theorem exists_idx_mem_enum {α : Type} {l : List α} {a : α} (h : a ∈ l) :
    ∃ i, (i, a) ∈ l.enum := by
  obtain ⟨i, hi, ha⟩ := List.mem_iff_getElem.mp h
  refine ⟨i, ?_⟩
  have hlen : i < l.enum.length := by simpa [List.enum_length] using hi
  have hcell : l.enum[i] = (i, a) := by
    rw [List.getElem_enum, ha]
  rw [← hcell]
  exact List.getElem_mem hlen

/-- C4: the mistakes counter stays non-negative; it drops by exactly one
on each evaluated incorrect submission and is untouched by no-ops,
duplicates, correct guesses, reveal and the failure effect; reset puts it
back to 4; four wrong evaluated guesses from 4 drive it to 0; and at 0
with unsolved groups the failure effect sets the failure flag, empties
the tile pool and commits every unsolved solution group. -/
theorem mistakes_floor_and_forced_failure :
    (∀ (gid qid : String) (st : SolveState), 0 ≤ st.mistakesRemaining →
      0 ≤ (onSubmit gid qid st).2.mistakesRemaining)
  ∧ (∀ (gid qid : String) (st : SolveState) (b : Bool),
      (onSubmit gid qid st).1 = .wrong b →
      0 < st.mistakesRemaining ∧
      (onSubmit gid qid st).2.mistakesRemaining = st.mistakesRemaining - 1)
  ∧ (∀ (gid qid : String) (st : SolveState),
      (onSubmit gid qid st).1 = .noop ∨ (onSubmit gid qid st).1 = .duplicate ∨
        (onSubmit gid qid st).1 = .correct →
      (onSubmit gid qid st).2.mistakesRemaining = st.mistakesRemaining)
  ∧ (∀ st : SolveState, (resetAll st).mistakesRemaining = 4)
  ∧ (∀ (fresh : Nat → String) (st : SolveState),
      (revealSolution fresh st).mistakesRemaining = st.mistakesRemaining ∧
      (runOutOfMistakesEffect fresh st).mistakesRemaining =
        st.mistakesRemaining)
  ∧ (∀ (s0 s1 s2 s3 s4 : SolveState)
      (g1 q1 g2 q2 g3 q3 g4 q4 : String) (b1 b2 b3 b4 : Bool),
      s0.mistakesRemaining = 4 →
      (onSubmit g1 q1 s0).1 = .wrong b1 →
      s1.mistakesRemaining = (onSubmit g1 q1 s0).2.mistakesRemaining →
      (onSubmit g2 q2 s1).1 = .wrong b2 →
      s2.mistakesRemaining = (onSubmit g2 q2 s1).2.mistakesRemaining →
      (onSubmit g3 q3 s2).1 = .wrong b3 →
      s3.mistakesRemaining = (onSubmit g3 q3 s2).2.mistakesRemaining →
      (onSubmit g4 q4 s3).1 = .wrong b4 →
      s4.mistakesRemaining = (onSubmit g4 q4 s3).2.mistakesRemaining →
      s4.mistakesRemaining = 0)
  ∧ (∀ (fresh : Nat → String) (st : SolveState),
      st.mistakesRemaining ≤ 0 →
      st.groups.length ≠ 4 →
      st.solutionGroups.length = 4 →
      (runOutOfMistakesEffect fresh st).didFail = true ∧
      (runOutOfMistakesEffect fresh st).tiles = [] ∧
      (∃ added, (runOutOfMistakesEffect fresh st).groups =
        st.groups ++ added) ∧
      (∀ sg ∈ st.solutionGroups, (∀ g ∈ st.groups, g.color ≠ sg.color) →
        ∃ g ∈ (runOutOfMistakesEffect fresh st).groups,
          g.color = sg.color ∧ g.title = some sg.title ∧
            g.tileIds = sg.tileIds)) := by
  refine ⟨?_, fun gid qid st b h => onSubmit_wrong_mistakes gid qid st b h,
    ?_, fun st => rfl, ?_, ?_, ?_⟩
  · intro gid qid st h
    simp only [onSubmit]
    split
    · exact h
    · split
      · exact h
      · split
        all_goals
          split
          · exact h
          · split
            · split
              all_goals split
              all_goals exact le_max_left 0 _
            · split
              · exact h
              · exact h
  · intro gid qid st h
    rcases h with h | h | h
    all_goals revert h
    all_goals simp only [onSubmit]
    all_goals split
    · intro _; rfl
    · split
      · intro _; rfl
      · split
        all_goals
          split
          · intro _; rfl
          · split
            · intro h; exact absurd h (by simp)
            · split
              · intro _; rfl
              · intro _; rfl
    · intro _; rfl
    · split
      · intro _; rfl
      · split
        all_goals
          split
          · intro _; rfl
          · split
            · intro h; exact absurd h (by simp)
            · split
              · intro _; rfl
              · intro _; rfl
    · intro _; rfl
    · split
      · intro _; rfl
      · split
        all_goals
          split
          · intro _; rfl
          · split
            · intro h; exact absurd h (by simp)
            · split
              · intro _; rfl
              · intro _; rfl
  · intro fresh st
    constructor
    · rfl
    · simp only [runOutOfMistakesEffect]
      split
      · rfl
      · split
        · rfl
        · split
          · rfl
          · rfl
  · intro s0 s1 s2 s3 s4 g1 q1 g2 q2 g3 q3 g4 q4 b1 b2 b3 b4
      h0 hw1 h1 hw2 h2 hw3 h3 hw4 h4
    have e1 := (onSubmit_wrong_mistakes g1 q1 s0 b1 hw1).2
    have e2 := (onSubmit_wrong_mistakes g2 q2 s1 b2 hw2).2
    have e3 := (onSubmit_wrong_mistakes g3 q3 s2 b3 hw3).2
    have e4 := (onSubmit_wrong_mistakes g4 q4 s3 b4 hw4).2
    omega
  · intro fresh st hm hg hs
    have hnotpos : ¬ 0 < st.mistakesRemaining := by omega
    have heq : runOutOfMistakesEffect fresh st =
        revealSolution fresh
          { st with didFail := true,
                    snack := some "Better Luck Next Time!" } := by
      simp only [runOutOfMistakesEffect]
      rw [if_neg hnotpos, if_neg hg, if_neg (by rw [hs]; intro h; exact h rfl)]
    rw [heq]
    refine ⟨rfl, rfl, ⟨_, rfl⟩, ?_⟩
    intro sg hsg hunsolved
    have hcontains : ((st.groups.map (fun g => g.color)).contains sg.color) =
        false := by
      cases hc : (st.groups.map (fun g => g.color)).contains sg.color with
      | false => rfl
      | true =>
          exfalso
          obtain ⟨g, hgmem, hgc⟩ :=
            List.mem_map.mp (string_contains_iff.mp hc)
          exact hunsolved g hgmem hgc
    have hfilterMem : sg ∈ st.solutionGroups.filter
        (fun s => !((st.groups.map (fun g => g.color)).contains s.color)) := by
      rw [List.mem_filter]
      exact ⟨hsg, by rw [hcontains]; rfl⟩
    obtain ⟨i, hienum⟩ := exists_idx_mem_enum hfilterMem
    refine ⟨⟨fresh i, sg.color, some sg.title, sg.tileIds⟩, ?_, rfl, rfl, rfl⟩
    simp only [revealSolution]
    apply List.mem_append_right
    exact List.mem_map.mpr ⟨(i, sg), hienum, rfl⟩

theorem mistakes_floor_and_forced_failure_witness :
    chainState4.mistakesRemaining = 0
  ∧ (runOutOfMistakesEffect sampleFresh chainState4).didFail = true
  ∧ (runOutOfMistakesEffect sampleFresh chainState4).tiles = [] := by
  have hchain := mistakes_floor_and_forced_failure.2.2.2.2.2.1
    chainState0 chainState1 chainState2 chainState3 chainState4
    "g1" "q1" "g2" "q2" "g3" "q3" "g4" "q4" true true true true
    (by decide) (by decide) (by decide) (by decide) (by decide)
    (by decide) (by decide) (by decide) (by decide)
  have heff := mistakes_floor_and_forced_failure.2.2.2.2.2.2 sampleFresh
    chainState4 (le_of_eq hchain) (by decide) (by decide)
  exact ⟨hchain, heff.1, heff.2.1⟩

theorem mapM_cardToTile_ok (docId : Int) (l : List NytCard)
    (h : ∀ c ∈ l, c.supported = true) :
    ∃ ts, l.mapM (cardToTile docId) = Except.ok ts := by
  induction l with
  | nil => exact ⟨[], rfl⟩
  | cons c cs ih =>
      obtain ⟨ts, hts⟩ := ih (fun x hx => h x (List.mem_cons_of_mem _ hx))
      have hc := h c (List.mem_cons_self _ _)
      cases c with
      | text content p =>
          exact ⟨_, by rw [List.mapM_cons, hts]; rfl⟩
      | image url alt p =>
          exact ⟨_, by rw [List.mapM_cons, hts]; rfl⟩
      | other p => simp [NytCard.supported] at hc

/-- C6 counterexample: a 16-card document with only two categories is NOT
refused — `loadDoc` succeeds and produces two solution groups, so the
category count is never validated. -/
theorem loadDoc_two_categories_loads :
    badCategoriesDoc.categories.length = 2
  ∧ (loadDoc badCategoriesDoc).isOk = true
  ∧ (nytToSolutionGroups badCategoriesDoc).length = 2 := by decide

/-- C6 (amended): for an OK-status document of supported cards, loading
is refused exactly when the flattened card count differs from 16 — the
category count is not checked — and a 4x4 document loads successfully. -/
theorem loadDoc_refusal_iff_card_count (data : NytData)
    (hstatus : data.status = "OK")
    (hsupp : ∀ cat ∈ data.categories, ∀ c ∈ cat.cards,
      c.supported = true) :
    ((loadDoc data).isOk = true ↔
      ((data.categories.map (fun c => c.cards)).flatten).length = 16)
  ∧ (data.categories.length = 4 →
      (∀ cat ∈ data.categories, cat.cards.length = 4) →
      (loadDoc data).isOk = true) := by
  have hflat : ∀ c ∈ (data.categories.map (fun c => c.cards)).flatten,
      NytCard.supported c = true := by
    intro c hc
    rw [List.mem_flatten] at hc
    obtain ⟨cards, hcards, hcmem⟩ := hc
    obtain ⟨cat, hcat, rfl⟩ := List.mem_map.mp hcards
    exact hsupp cat hcat c hcmem
  have hmain : (loadDoc data).isOk = true ↔
      ((data.categories.map (fun c => c.cards)).flatten).length = 16 := by
    rw [loadDoc, if_neg (by rw [hstatus]; intro h; exact h rfl)]
    rw [nytToTiles]
    by_cases hn : ((data.categories.map (fun c => c.cards)).flatten).length
        = 16
    · rw [if_neg (by rw [hn]; intro h; exact h rfl)]
      have hsorted : ∀ c ∈ sortByPosition
          ((data.categories.map (fun c => c.cards)).flatten),
          NytCard.supported c = true := by
        intro c hc
        exact hflat c ((List.perm_insertionSort _ _).mem_iff.mp hc)
      obtain ⟨ts, hts⟩ := mapM_cardToTile_ok data.id _ hsorted
      rw [hts]
      exact ⟨fun _ => hn, fun _ => rfl⟩
    · rw [if_pos hn]
      constructor
      · intro h
        exact absurd h Bool.false_ne_true
      · intro h
        exact absurd h hn
  refine ⟨hmain, ?_⟩
  intro hcats hcards
  rw [hmain, List.length_flatten]
  have : (data.categories.map (fun c => c.cards)).map List.length =
      List.replicate 4 4 := by
    rw [List.eq_replicate_iff]
    constructor
    · rw [List.length_map, List.length_map, hcats]
    · intro b hb
      rw [List.map_map, List.mem_map] at hb
      obtain ⟨cat, hcat, rfl⟩ := hb
      exact hcards cat hcat
  rw [this]
  rfl

theorem loadDoc_refusal_iff_card_count_witness :
    ((loadDoc goodDoc).isOk = true ↔
      ((goodDoc.categories.map (fun c => c.cards)).flatten).length = 16)
  ∧ (loadDoc goodDoc).isOk = true := by
  have h := loadDoc_refusal_iff_card_count goodDoc (by decide) (by decide)
  exact ⟨h.1, h.2 (by decide) (by decide)⟩

example : listAvailableDatesFromDisk sampleCacheDir = ["2024-06-01"] := by
  decide
example : isDateName "2024-06-01" = true := by decide
example : isDateName "index" = false := by decide

theorem fsRead_write_self (fs : FileSys) (d : String) (c : FileContent) :
    fsRead (fsWrite fs d c) d = some c := by
  induction fs with
  | nil => simp [fsWrite, fsRead, List.lookup]
  | cons p rest ih =>
      rw [fsWrite]
      by_cases hd : p.1 = d
      · rw [if_pos hd]
        simp [fsRead, List.lookup]
      · rw [if_neg hd]
        have hne : (d == p.1) = false := by
          simp only [beq_eq_false_iff_ne, ne_eq]
          intro h; exact hd h.symm
        simp only [fsRead, List.lookup, hne]
        exact ih

theorem fsRead_write_other (fs : FileSys) (d k : String) (c : FileContent)
    (hne : k ≠ d) :
    fsRead (fsWrite fs d c) k = fsRead fs k := by
  induction fs with
  | nil =>
      have h : (k == d) = false := by simpa using hne
      simp [fsWrite, fsRead, List.lookup, h]
  | cons p rest ih =>
      rw [fsWrite]
      by_cases hd : p.1 = d
      · rw [if_pos hd]
        have h1 : (k == d) = false := by simpa using hne
        have h2 : (k == p.1) = false := by rw [hd]; exact h1
        simp only [fsRead, List.lookup, h1, h2]
      · rw [if_neg hd]
        by_cases hk : k = p.1
        · have h : (k == p.1) = true := by simpa using hk
          simp only [fsRead, List.lookup, h]
        · have h : (k == p.1) = false := by simpa using hk
          simp only [fsRead, List.lookup, h]
          exact ih

theorem fetchOne_write_status {remote : String → RemoteResult} {d : String}
    {doc : CacheDoc} (h : (fetchOne remote d).2 = some doc) :
    doc.status = "OK" := by
  unfold fetchOne at h
  split at h
  · simp at h
  · split at h
    · simp at h
    · next hs =>
        rw [not_not] at hs
        simp only [Option.some.injEq] at h
        rw [← h]
        exact hs

theorem existing_ok_iff (fs : FileSys) (d : String) :
    (∃ e, resultFromExistingFile fs d = some e ∧ e.ok = true) ↔
      goodFile fs d := by
  rw [resultFromExistingFile]
  split
  · next hread =>
      constructor
      · rintro ⟨e, he, _⟩; cases he
      · rintro ⟨doc, hdoc, _⟩; rw [hread] at hdoc; cases hdoc
  · next hread =>
      constructor
      · rintro ⟨e, he, hok⟩
        rw [Option.some.injEq] at he
        rw [← he] at hok
        cases hok
      · rintro ⟨doc, hdoc, _⟩
        rw [hread] at hdoc
        cases hdoc
  · next dd hread =>
      split
      · next hs =>
          constructor
          · rintro ⟨e, he, hok⟩
            rw [Option.some.injEq] at he
            rw [← he] at hok
            cases hok
          · rintro ⟨doc, hdoc, hok⟩
            rw [hread, Option.some.injEq, FileContent.doc.injEq] at hdoc
            exact absurd (show dd.status = "OK" by rw [hdoc]; exact hok) hs
      · next hs =>
          rw [not_not] at hs
          constructor
          · intro _
            exact ⟨dd, hread, hs⟩
          · intro _
            exact ⟨_, rfl, rfl⟩

theorem syncStep_fst_of_settled {remote : String → RemoteResult}
    {fs : FileSys} {d : String} (h : settledDate remote fs d) :
    (syncStep remote fs d).1 = fs := by
  rcases h with hgood | hnf
  · obtain ⟨e, he, hok⟩ := (existing_ok_iff fs d).mpr hgood
    rw [syncStep]
    split
    · next e' heq =>
        rw [he, Option.some.injEq] at heq
        rw [if_pos (by rw [← heq]; exact hok)]
    · next heq =>
        rw [he] at heq
        cases heq
  · rw [syncStep]
    split
    · next e' heq =>
        by_cases hok : e'.ok = true
        · rw [if_pos hok]
        · rw [if_neg hok]
          split
          · next entry dd hfe =>
              exfalso
              have : (fetchOne remote d).2 = some dd := by rw [hfe]
              rw [hnf] at this
              cases this
          · next entry hfe => rfl
    · next heq =>
        split
        · next entry dd hfe =>
            exfalso
            have : (fetchOne remote d).2 = some dd := by rw [hfe]
            rw [hnf] at this
            cases this
        · next entry hfe => rfl

theorem syncStep_fst_cases (remote : String → RemoteResult) (fs : FileSys)
    (d : String) :
    (syncStep remote fs d).1 = fs ∨
    ∃ doc, (syncStep remote fs d).1 = fsWrite fs d (.doc doc) ∧
      doc.status = "OK" := by
  rw [syncStep]
  split
  · next e heq =>
      by_cases hok : e.ok = true
      · rw [if_pos hok]; exact Or.inl rfl
      · rw [if_neg hok]
        split
        · next entry dd hfe =>
            refine Or.inr ⟨dd, rfl, ?_⟩
            exact fetchOne_write_status (by rw [hfe])
        · next entry hfe => exact Or.inl rfl
  · next heq =>
      split
      · next entry dd hfe =>
          refine Or.inr ⟨dd, rfl, ?_⟩
          exact fetchOne_write_status (by rw [hfe])
      · next entry hfe => exact Or.inl rfl

theorem syncStep_entry_eq (remote : String → RemoteResult) (fs : FileSys)
    (d : String) {e : SyncEntry}
    (he : resultFromExistingFile fs d = some e) (hok : e.ok = true) :
    syncStep remote fs d = (fs, e) := by
  rw [syncStep]
  split
  · next e' heq =>
      rw [he, Option.some.injEq] at heq
      rw [if_pos (by rw [← heq]; exact hok), heq]
  · next heq =>
      rw [he] at heq
      cases heq

theorem fsRead_none_of_existing_none {fs : FileSys} {d : String}
    (h : resultFromExistingFile fs d = none) : fsRead fs d = none := by
  rw [resultFromExistingFile] at h
  split at h
  · next hread => exact hread
  · next hread => cases h
  · next dd hread => split at h <;> cases h

theorem syncStep_settled_after (remote : String → RemoteResult)
    (fs : FileSys) (d : String) :
    settledDate remote ((syncStep remote fs d).1) d := by
  rcases syncStep_fst_cases remote fs d with heq | ⟨doc, heq, hok⟩
  · rw [heq]
    by_cases hgood : goodFile fs d
    · exact Or.inl hgood
    · right
      cases hw : (fetchOne remote d).2 with
      | none => rfl
      | some dd =>
          exfalso
          rw [syncStep] at heq
          revert heq
          split
          · next e hres =>
              by_cases hoke : e.ok = true
              · intro _
                exact hgood ((existing_ok_iff fs d).mp ⟨e, hres, hoke⟩)
              · rw [if_neg hoke]
                split
                · next entry dd2 hfe =>
                    intro heq2
                    have heq3 : fsWrite fs d (.doc dd2) = fs := heq2
                    have hcontra : fsRead (fsWrite fs d (.doc dd2)) d =
                        fsRead fs d := by rw [heq3]
                    rw [fsRead_write_self] at hcontra
                    have hgood2 : goodFile fs d :=
                      ⟨dd2, hcontra.symm,
                        fetchOne_write_status (by rw [hfe])⟩
                    exact hgood hgood2
                · next entry hfe =>
                    intro _
                    have : (fetchOne remote d).2 = none := by rw [hfe]
                    rw [hw] at this
                    cases this
          · next hres =>
              split
              · next entry dd2 hfe =>
                  intro heq2
                  have heq3 : fsWrite fs d (.doc dd2) = fs := heq2
                  have hcontra : fsRead (fsWrite fs d (.doc dd2)) d =
                      fsRead fs d := by rw [heq3]
                  rw [fsRead_write_self, fsRead_none_of_existing_none hres]
                    at hcontra
                  cases hcontra
              · next entry hfe =>
                  intro _
                  have : (fetchOne remote d).2 = none := by rw [hfe]
                  rw [hw] at this
                  cases this
  · left
    exact ⟨doc, by rw [heq, fsRead_write_self], hok⟩

theorem syncStep_read_other (remote : String → RemoteResult) (fs : FileSys)
    (d k : String) (hne : k ≠ d) :
    fsRead ((syncStep remote fs d).1) k = fsRead fs k := by
  rcases syncStep_fst_cases remote fs d with heq | ⟨doc, heq, _⟩
  · rw [heq]
  · rw [heq]
    exact fsRead_write_other fs d k _ hne

theorem syncStep_preserves_good (remote : String → RemoteResult)
    (fs : FileSys) (d k : String) (h : goodFile fs k) :
    goodFile ((syncStep remote fs d).1) k := by
  by_cases hk : k = d
  · subst hk
    rcases syncStep_fst_cases remote fs k with heq | ⟨doc, heq, hok⟩
    · rw [heq]; exact h
    · rw [heq]
      exact ⟨doc, fsRead_write_self fs k _, hok⟩
  · obtain ⟨doc, hread, hok⟩ := h
    exact ⟨doc, by rw [syncStep_read_other remote fs d k hk]; exact hread,
      hok⟩

theorem syncStep_preserves_good_read (remote : String → RemoteResult)
    (fs : FileSys) (d k : String) (h : goodFile fs k) :
    fsRead ((syncStep remote fs d).1) k = fsRead fs k := by
  by_cases hk : k = d
  · subst hk
    rw [syncStep_fst_of_settled (Or.inl h)]
  · exact syncStep_read_other remote fs d k hk

theorem syncStep_preserves_settled (remote : String → RemoteResult)
    (fs : FileSys) (d k : String) (h : settledDate remote fs k) :
    settledDate remote ((syncStep remote fs d).1) k := by
  rcases h with hgood | hnf
  · exact Or.inl (syncStep_preserves_good remote fs d k hgood)
  · exact Or.inr hnf

theorem runSyncFs_nil (remote : String → RemoteResult) (fs : FileSys) :
    runSyncFs remote [] fs = fs := rfl

theorem runSyncFs_cons (remote : String → RemoteResult) (d : String)
    (ds : List String) (fs : FileSys) :
    runSyncFs remote (d :: ds) fs =
      runSyncFs remote ds (syncStep remote fs d).1 := rfl

theorem runSyncFs_preserves_settled (remote : String → RemoteResult)
    (ds : List String) (fs : FileSys) (k : String)
    (h : settledDate remote fs k) :
    settledDate remote (runSyncFs remote ds fs) k := by
  induction ds generalizing fs with
  | nil => exact h
  | cons d ds ih =>
      rw [runSyncFs_cons]
      exact ih _ (syncStep_preserves_settled remote fs d k h)

theorem runSyncFs_preserves_good_read (remote : String → RemoteResult)
    (ds : List String) (fs : FileSys) (k : String) (h : goodFile fs k) :
    fsRead (runSyncFs remote ds fs) k = fsRead fs k := by
  induction ds generalizing fs with
  | nil => rfl
  | cons d ds ih =>
      rw [runSyncFs_cons]
      rw [ih _ (syncStep_preserves_good remote fs d k h)]
      exact syncStep_preserves_good_read remote fs d k h

theorem runSyncFs_settled_all (remote : String → RemoteResult)
    (dates : List String) (fs : FileSys) :
    ∀ d ∈ dates, settledDate remote (runSyncFs remote dates fs) d := by
  induction dates generalizing fs with
  | nil => intro d hd; exact absurd hd (List.not_mem_nil d)
  | cons d0 ds ih =>
      intro d hd
      rw [runSyncFs_cons]
      rcases List.mem_cons.mp hd with rfl | hd'
      · exact runSyncFs_preserves_settled remote ds _ d
          (syncStep_settled_after remote fs d)
      · exact ih _ d hd'

theorem runSyncFs_id_of_settled (remote : String → RemoteResult)
    (dates : List String) (fs : FileSys)
    (h : ∀ d ∈ dates, settledDate remote fs d) :
    runSyncFs remote dates fs = fs := by
  induction dates with
  | nil => rfl
  | cons d ds ih =>
      rw [runSyncFs_cons,
        syncStep_fst_of_settled (h d (List.mem_cons_self _ _))]
      exact ih (fun x hx => h x (List.mem_cons_of_mem _ hx))

theorem runSync_foldl_fst (remote : String → RemoteResult)
    (dates : List String) :
    ∀ (fs : FileSys) (acc : List (String × SyncEntry)),
    (dates.foldl (fun acc d =>
      ((syncStep remote acc.1 d).1,
       acc.2 ++ [(d, (syncStep remote acc.1 d).2)])) (fs, acc)).1 =
      runSyncFs remote dates fs := by
  induction dates with
  | nil => intro fs acc; rfl
  | cons d ds ih =>
      intro fs acc
      rw [List.foldl_cons, runSyncFs_cons]
      exact ih _ _

theorem runSync_fst (remote : String → RemoteResult) (dates : List String)
    (fs : FileSys) :
    (runSync remote dates fs).1 = runSyncFs remote dates fs :=
  runSync_foldl_fst remote dates fs []

theorem runSync_foldl_acc_mono (remote : String → RemoteResult)
    (dates : List String) :
    ∀ (fs : FileSys) (acc : List (String × SyncEntry))
      (x : String × SyncEntry), x ∈ acc →
    x ∈ (dates.foldl (fun acc d =>
      ((syncStep remote acc.1 d).1,
       acc.2 ++ [(d, (syncStep remote acc.1 d).2)])) (fs, acc)).2 := by
  induction dates with
  | nil => intro fs acc x hx; exact hx
  | cons d ds ih =>
      intro fs acc x hx
      rw [List.foldl_cons]
      exact ih _ _ x (List.mem_append_left _ hx)

theorem runSync_foldl_entry_ok (remote : String → RemoteResult)
    (dates : List String) :
    ∀ (fs : FileSys) (acc : List (String × SyncEntry)) (d : String),
      d ∈ dates → goodFile fs d →
    ∃ e, (d, e) ∈ (dates.foldl (fun acc d =>
      ((syncStep remote acc.1 d).1,
       acc.2 ++ [(d, (syncStep remote acc.1 d).2)])) (fs, acc)).2 ∧
      e.ok = true := by
  induction dates with
  | nil => intro fs acc d hd; exact absurd hd (List.not_mem_nil d)
  | cons d0 ds ih =>
      intro fs acc d hd hgood
      rw [List.foldl_cons]
      rcases List.mem_cons.mp hd with rfl | hd'
      · obtain ⟨e, he, hok⟩ := (existing_ok_iff fs d).mpr hgood
        have hstep : syncStep remote fs d = (fs, e) :=
          syncStep_entry_eq remote fs d he hok
        refine ⟨e, ?_, hok⟩
        apply runSync_foldl_acc_mono
        apply List.mem_append_right
        rw [hstep]
        exact List.mem_singleton.mpr rfl
      · exact ih _ _ d hd'
          (syncStep_preserves_good remote fs d0 d hgood)

/-- C7: with no remote changes, a second run of the Sync Job's date loop
changes no cache file (so the availability scan is identical), the first
run never overwrites a good cached file, and every date whose cache file
is already good is recorded as an ok (cache-skip) entry. -/
theorem syncJob_idempotent (remote : String → RemoteResult)
    (dates : List String) (fs0 : FileSys) :
    (runSync remote dates (runSync remote dates fs0).1).1 =
      (runSync remote dates fs0).1
  ∧ listAvailableDatesFromDisk
        (runSync remote dates (runSync remote dates fs0).1).1 =
      listAvailableDatesFromDisk (runSync remote dates fs0).1
  ∧ (∀ d, goodFile fs0 d →
      fsRead (runSync remote dates fs0).1 d = fsRead fs0 d)
  ∧ (∀ d ∈ dates, goodFile fs0 d →
      ∃ e, (d, e) ∈ (runSync remote dates fs0).2 ∧ e.ok = true) := by
  have hfix : (runSync remote dates (runSync remote dates fs0).1).1 =
      (runSync remote dates fs0).1 := by
    rw [runSync_fst, runSync_fst]
    exact runSyncFs_id_of_settled remote dates _
      (runSyncFs_settled_all remote dates fs0)
  refine ⟨hfix, by rw [hfix], ?_, ?_⟩
  · intro d hgood
    rw [runSync_fst]
    exact runSyncFs_preserves_good_read remote dates fs0 d hgood
  · intro d hd hgood
    exact runSync_foldl_entry_ok remote dates fs0 [] d hd hgood

theorem syncJob_idempotent_witness :
    (runSync (fun _ => RemoteResult.httpError 404 "Not Found")
        ["2024-06-01", "2024-06-03"]
        (runSync (fun _ => RemoteResult.httpError 404 "Not Found")
          ["2024-06-01", "2024-06-03"] sampleCacheDir).1).1 =
      (runSync (fun _ => RemoteResult.httpError 404 "Not Found")
        ["2024-06-01", "2024-06-03"] sampleCacheDir).1
  ∧ (∃ e, ("2024-06-01", e) ∈
      (runSync (fun _ => RemoteResult.httpError 404 "Not Found")
        ["2024-06-01", "2024-06-03"] sampleCacheDir).2 ∧ e.ok = true) := by
  have h := syncJob_idempotent
    (fun _ => RemoteResult.httpError 404 "Not Found")
    ["2024-06-01", "2024-06-03"] sampleCacheDir
  refine ⟨h.1, h.2.2.2 "2024-06-01" (by decide)
    ⟨⟨"OK", "2024-06-01", 1, "E"⟩, rfl, rfl⟩⟩

theorem lookup_mem_str {β : Type} {l : List (String × β)} {k : String}
    {v : β} (h : List.lookup k l = some v) : (k, v) ∈ l := by
  induction l with
  | nil => cases h
  | cons p rest ih =>
      by_cases hk : k = p.1
      · subst hk
        simp only [List.lookup, beq_self_eq_true] at h
        rw [Option.some.injEq] at h
        rw [← h]
        simp
      · have hkb : (k == p.1) = false := by simpa using hk
        simp only [List.lookup, hkb] at h
        exact List.mem_cons_of_mem _ (ih h)

theorem lookup_of_mem_nodup {β : Type} {l : List (String × β)} {k : String}
    {v : β} (hnd : (l.map Prod.fst).Nodup) (h : (k, v) ∈ l) :
    List.lookup k l = some v := by
  induction l with
  | nil => cases h
  | cons p rest ih =>
      rw [List.map_cons, List.nodup_cons] at hnd
      rcases List.mem_cons.mp h with heq | hmem
      · rw [← heq]
        simp [List.lookup]
      · have hk : k ≠ p.1 := by
          intro hkp
          apply hnd.1
          rw [← hkp]
          exact List.mem_map_of_mem Prod.fst hmem
        have hkb : (k == p.1) = false := by simpa using hk
        simp only [List.lookup, hkb]
        exact ih hnd.2 hmem

/-- C8: for a cache directory with (filesystem-unique) file names, the
availability list contains a date exactly when the date-named file
exists, parses as a document, has status OK, and carries an embedded
`print_date` equal to the filename's date; and the list is sorted
ascending. -/
theorem listAvailableDates_spec (fs : FileSys)
    (hnd : (fs.map Prod.fst).Nodup) :
    (∀ d, d ∈ listAvailableDatesFromDisk fs ↔
      (isDateName d = true ∧ ∃ doc, fsRead fs d = some (.doc doc) ∧
        doc.status = "OK" ∧ doc.print_date = d))
  ∧ List.Sorted StrLE (listAvailableDatesFromDisk fs) := by
  constructor
  · intro d
    rw [listAvailableDatesFromDisk, sortStrings,
      (List.perm_insertionSort StrLE _).mem_iff, List.mem_filterMap]
    constructor
    · rintro ⟨p, hp, hsome⟩
      split at hsome
      · next hname =>
          split at hsome
          · next dd heq =>
              split at hsome
              · next hcond =>
                  rw [Option.some.injEq] at hsome
                  subst hsome
                  have hpmem : (p.1, FileContent.doc dd) ∈ fs := by
                    rw [← heq, Prod.mk.eta]
                    exact hp
                  exact ⟨hname, dd, lookup_of_mem_nodup hnd hpmem,
                    hcond.1, hcond.2⟩
              · cases hsome
          · next heq => cases hsome
      · cases hsome
    · rintro ⟨hname, doc, hread, hok, hpd⟩
      refine ⟨(d, FileContent.doc doc), lookup_mem_str hread, ?_⟩
      show (if isDateName d = true then
        if doc.status = "OK" ∧ doc.print_date = d then some d else none
        else none) = some d
      rw [if_pos hname, if_pos ⟨hok, hpd⟩]
  · exact List.sorted_insertionSort _ _

theorem listAvailableDates_spec_witness :
    ("2024-06-01" ∈ listAvailableDatesFromDisk sampleCacheDir ↔
      (isDateName "2024-06-01" = true ∧
        ∃ doc, fsRead sampleCacheDir "2024-06-01" = some (.doc doc) ∧
          doc.status = "OK" ∧ doc.print_date = "2024-06-01"))
  ∧ ("2024-06-02" ∈ listAvailableDatesFromDisk sampleCacheDir ↔
      (isDateName "2024-06-02" = true ∧
        ∃ doc, fsRead sampleCacheDir "2024-06-02" = some (.doc doc) ∧
          doc.status = "OK" ∧ doc.print_date = "2024-06-02"))
  ∧ List.Sorted StrLE (listAvailableDatesFromDisk sampleCacheDir) := by
  have h := listAvailableDates_spec sampleCacheDir (by decide)
  exact ⟨h.1 "2024-06-01", h.1 "2024-06-02", h.2⟩

theorem filterMap_length_of_all_some {l : List (Option String)}
    (h : ∀ t ∈ l, ∃ s, t = some s) :
    (l.filterMap (fun t => t)).length = l.length := by
  induction l with
  | nil => rfl
  | cons t ts ih =>
      obtain ⟨s, rfl⟩ := h t (List.mem_cons_self _ _)
      rw [List.filterMap_cons]
      simp only [List.length_cons]
      rw [ih (fun x hx => h x (List.mem_cons_of_mem _ hx))]

theorem cleanGroup_wf {validTileIds : List String} {freshId : String}
    {g : RawGroup} {pg : PlayerGroup}
    (h : cleanGroup validTileIds freshId g = some pg) :
    pg.tileIds.length = 4 ∧ ∀ id ∈ pg.tileIds, id ∈ validTileIds := by
  unfold cleanGroup at h
  split at h
  · cases h
  · next tids heq =>
      split at h
      · cases h
      · next hlen4 =>
          split at h
          · cases h
          · next c heqc =>
              split at h
              · cases h
              · split at h
                · cases h
                · next hany =>
                    rw [Option.some.injEq] at h
                    subst h
                    have hany' : (tids.any (fun t =>
                        match t with
                        | none => true
                        | some id => !(validTileIds.contains id))) = false :=
                      Bool.eq_false_iff.mpr hany
                    rw [List.any_eq_false] at hany'
                    have hall : ∀ t ∈ tids, ∃ s, t = some s ∧
                        validTileIds.contains s = true := by
                      intro t ht
                      have hthis := hany' t ht
                      cases t with
                      | none => simp at hthis
                      | some s =>
                          refine ⟨s, rfl, ?_⟩
                          simpa using hthis
                    constructor
                    · show (tids.filterMap (fun t => t)).length = 4
                      rw [filterMap_length_of_all_some
                        (fun t ht => ⟨(hall t ht).choose,
                          (hall t ht).choose_spec.1⟩)]
                      omega
                    · intro id hid
                      have hid' : id ∈ tids.filterMap (fun t => t) := hid
                      rw [List.mem_filterMap] at hid'
                      obtain ⟨t, ht, hts⟩ := hid'
                      obtain ⟨s, hs, hc⟩ := hall t ht
                      rw [hs] at hts
                      have hsid : s = id := by simpa using hts
                      rw [← hsid]
                      exact string_contains_iff.mp hc

/-- C9: loading persisted progress is total and self-cleaning — every
kept group has exactly 4 known tile ids, every kept fingerprint splits
into exactly 4 parts, every kept guess row comes from a raw row with a
string id and exactly 4 colors, and the mistakes counter is clamped into
[0, 4] (non-numeric values defaulting to 4); unparseable or absent
records load the fresh default state. -/
theorem loadSavedSolveState_robust (fresh : Nat → String)
    (cookie : SavedCookie) (validTileIds : List String) :
    (∀ g ∈ (loadSavedSolveState fresh cookie validTileIds).groups,
      g.tileIds.length = 4 ∧ ∀ id ∈ g.tileIds, id ∈ validTileIds)
  ∧ (∀ k ∈ (loadSavedSolveState fresh cookie validTileIds).guessedKeys,
      (jsSplit '|' k).length = 4)
  ∧ (∀ p, cookie = SavedCookie.parsed p →
      ∀ gr ∈ (loadSavedSolveState fresh cookie validTileIds).guesses,
        ∃ raw ∈ p.guesses.getD [], raw.id = some gr.id ∧
          ∃ cs, raw.colors = some cs ∧ cs.length = 4 ∧
            gr.colors = (cs.filter (fun c => c ≠ "")).take 4)
  ∧ (0 ≤ (loadSavedSolveState fresh cookie validTileIds).mistakesRemaining ∧
      (loadSavedSolveState fresh cookie validTileIds).mistakesRemaining ≤ 4)
  ∧ (∀ p, cookie = SavedCookie.parsed p →
      ∀ n, p.mistakesRemaining = some (RawNum.fin n) →
      (loadSavedSolveState fresh cookie validTileIds).mistakesRemaining =
        max 0 (min 4 n))
  ∧ (∀ p, cookie = SavedCookie.parsed p →
      (∀ n, p.mistakesRemaining ≠ some (RawNum.fin n)) →
      (loadSavedSolveState fresh cookie validTileIds).mistakesRemaining = 4)
  ∧ (cookie = SavedCookie.malformedJson →
      loadSavedSolveState fresh cookie validTileIds = defaultLoaded)
  ∧ (cookie = SavedCookie.absent →
      loadSavedSolveState fresh cookie validTileIds = defaultLoaded) := by
  refine ⟨?_, ?_, ?_, ?_, ?_, ?_, ?_, ?_⟩
  · intro g hg
    cases cookie with
    | absent => cases hg
    | malformedJson => cases hg
    | parsed p =>
        have hg' : g ∈ (p.groups.getD []).enum.filterMap
            (fun q => cleanGroup validTileIds (fresh q.1) q.2) := hg
        rw [List.mem_filterMap] at hg'
        obtain ⟨q, _, hclean⟩ := hg'
        exact cleanGroup_wf hclean
  · intro k hk
    cases cookie with
    | absent => cases hk
    | malformedJson => cases hk
    | parsed p =>
        have hk' : k ∈ (p.guessedKeys.getD []).filterMap cleanKey := hk
        rw [List.mem_filterMap] at hk'
        obtain ⟨k0, _, hck⟩ := hk'
        unfold cleanKey at hck
        split at hck
        · cases hck
        · next s =>
            split at hck
            · cases hck
            · next hlen =>
                rw [Option.some.injEq] at hck
                rw [← hck]
                omega
  · rintro p rfl gr hgr
    have hgr' : gr ∈ (p.guesses.getD []).filterMap cleanGuess := hgr
    rw [List.mem_filterMap] at hgr'
    obtain ⟨raw, hraw, hcg⟩ := hgr'
    unfold cleanGuess at hcg
    split at hcg
    · next i cs hi hcs =>
        split at hcg
        · cases hcg
        · next hlen =>
            rw [Option.some.injEq] at hcg
            refine ⟨raw, hraw, ?_, cs, hcs, by omega, ?_⟩
            · rw [hi, ← hcg]
            · rw [← hcg]
    · cases hcg
  · cases cookie with
    | absent =>
        exact ⟨show (0 : Int) ≤ 4 by norm_num, show (4 : Int) ≤ 4 from le_refl 4⟩
    | malformedJson =>
        exact ⟨show (0 : Int) ≤ 4 by norm_num, show (4 : Int) ≤ 4 from le_refl 4⟩
    | parsed p =>
        cases hm : p.mistakesRemaining with
        | none =>
            constructor
            · simp [loadSavedSolveState, hm]
            · simp [loadSavedSolveState, hm]
        | some rn =>
            cases rn with
            | fin n =>
                constructor
                · simp only [loadSavedSolveState, hm]
                  omega
                · simp only [loadSavedSolveState, hm]
                  omega
            | bad =>
                constructor
                · simp [loadSavedSolveState, hm]
                · simp [loadSavedSolveState, hm]
  · rintro p rfl n hn
    simp only [loadSavedSolveState, hn]
  · rintro p rfl hnone
    cases hm : p.mistakesRemaining with
    | none => simp only [loadSavedSolveState, hm]
    | some rn =>
        cases rn with
        | fin n => exact absurd hm (hnone n)
        | bad => simp only [loadSavedSolveState, hm]
  · rintro rfl; rfl
  · rintro rfl; rfl

theorem loadSavedSolveState_robust_witness :
    (0 ≤ (loadSavedSolveState sampleFresh (SavedCookie.parsed junkSaved)
        ["a", "b", "c", "d"]).mistakesRemaining ∧
      (loadSavedSolveState sampleFresh (SavedCookie.parsed junkSaved)
        ["a", "b", "c", "d"]).mistakesRemaining ≤ 4)
  ∧ (loadSavedSolveState sampleFresh (SavedCookie.parsed junkSaved)
        ["a", "b", "c", "d"]).mistakesRemaining = max 0 (min 4 99)
  ∧ (∀ k ∈ (loadSavedSolveState sampleFresh (SavedCookie.parsed junkSaved)
        ["a", "b", "c", "d"]).guessedKeys, (jsSplit '|' k).length = 4)
  ∧ (∀ g ∈ (loadSavedSolveState sampleFresh (SavedCookie.parsed junkSaved)
        ["a", "b", "c", "d"]).groups,
      g.tileIds.length = 4 ∧ ∀ id ∈ g.tileIds, id ∈ ["a", "b", "c", "d"]) := by
  have h := loadSavedSolveState_robust sampleFresh
    (SavedCookie.parsed junkSaved) ["a", "b", "c", "d"]
  exact ⟨h.2.2.2.1, h.2.2.2.2.1 junkSaved rfl 99 rfl, h.2.1, h.1⟩

/-- C10: the results-dismissed flag is persisted by `saveSolveState` but
ignored on load — `loadSavedSolveState` returns `false` for it on every
input, so the flag never survives a reload. -/
theorem resultsDismissed_never_restored :
    (∀ (fresh : Nat → String) (cookie : SavedCookie)
      (validTileIds : List String),
      (loadSavedSolveState fresh cookie validTileIds).resultsDismissed =
        false)
  ∧ (∀ s : LoadedSolveState,
      (saveSolveState s).resultsDismissed = s.resultsDismissed) := by
  constructor
  · intro fresh cookie valid
    cases cookie <;> rfl
  · intro s
    rfl
